import Mathlib

/-!
A verification development for the `ai-session-viewer` program
(`src/session_viewer.py`).  The Python source is shallowly embedded:

* Python strings become `List Char` (`Str`); Python's substring operator
  `in` becomes contiguous-sublist containment;
* `datetime` values become `PyDT`, a wall-clock instant together with an
  optional UTC offset (`tzinfo`); `normalize_datetime` becomes integer
  subtraction of the offset;
* the SQLite store becomes an explicit `Store` structure (a `sessions`
  table and a `sessions_fts` table plus a fresh-rowid counter), and
  `build_index` becomes a pure function threading that store, returning
  `Except` to model fatal storage errors (UNIQUE-constraint violations)
  that abort the surrounding transaction;
* timestamps persisted by the indexer are ISO-8601 strings of UTC-naive
  datetimes; their lexicographic byte order coincides with chronological
  order, so the stored `start_time`/`last_time` columns are modelled as
  the normalized instants themselves (`Option Int`), `NULL` being `none`.

Line numbers in comments refer to `src/session_viewer.py`.
-/

namespace SessionViewer

/-- Python strings are modelled as lists of Unicode code points. -/
abbrev Str := List Char

/-- Model of Python `str.lower` on one code point.  It folds the ASCII
uppercase range (exactly `Char.toLower`) and the Latin-1 uppercase range
(a fragment of the full Unicode folding Python performs).  SQLite's `LIKE`
folds only the ASCII range, which is why the two foldings are distinct
functions and agree exactly on ASCII text. -/
def pyCharLower (c : Char) : Char :=
  if 0xC0 ≤ c.toNat ∧ c.toNat ≤ 0xDE ∧ c.toNat ≠ 0xD7 then Char.ofNat (c.toNat + 32)
  else c.toLower

/-- Python `str.lower`. -/
def pyLower (s : Str) : Str := s.map pyCharLower

/-- Python `str.strip()` (whitespace on both ends). -/
def pyStrip (s : Str) : Str :=
  ((s.dropWhile Char.isWhitespace).reverse.dropWhile Char.isWhitespace).reverse

/-- Helper for `wordsBy`: accumulates the current word (reversed) while
scanning. -/
def wordsByAux (keep : Char → Bool) : Str → Str → List Str
  | [], acc => if acc.isEmpty then [] else [acc.reverse]
  | c :: rest, acc =>
    if keep c then wordsByAux keep rest (c :: acc)
    else if acc.isEmpty then wordsByAux keep rest []
    else acc.reverse :: wordsByAux keep rest []

/-- Splits a string into the maximal runs of characters satisfying `keep`;
with `keep = not whitespace` this is Python's `str.split()`. -/
def wordsBy (keep : Char → Bool) (s : Str) : List Str := wordsByAux keep s []

/-- Python's substring test `needle in hay` (contiguous containment). -/
def pySub (needle hay : Str) : Bool := decide (needle <:+: hay)

/-- Embeds `build_search_tokens` (lines 267-271).  The source splits on
whitespace and maps `token.strip().lower()`, keeping non-blank tokens;
after whitespace-splitting, `strip` is the identity and every token is
nonempty, so this reduces to lowercasing each whitespace-run word. -/
def build_search_tokens (query : Str) : List Str :=
  (wordsBy (fun c => !c.isWhitespace) query).map pyLower

/-- Embeds `update_search_hits` (lines 282-290).  The Python function
mutates the `found` set in place and returns a bool; here it returns the
updated set together with the bool. -/
def update_search_hits (tokens : List Str) (found : Finset Str) (text : Str) :
    Finset Str × Bool :=
  if tokens = [] ∨ text = [] then (found, false)
  else
    let lowered := pyLower text
    let found' := tokens.foldl
      (fun fd token => if token ∉ fd ∧ pySub token lowered then insert token fd else fd)
      found
    (found', found'.card == tokens.length)

/-- Feeding a sequence of text chunks through `update_search_hits` with a
shared found-set that starts empty, as the streaming parsers do; the bool
is the return value of the last call (`false` if no chunk was fed). -/
def feed_chunks (tokens : List Str) (chunks : List Str) : Finset Str × Bool :=
  chunks.foldl (fun acc chunk => update_search_hits tokens acc.1 chunk) (∅, false)

/-- Embeds `matches_project_filter` (lines 396-400): case-insensitive
substring containment, an empty query always matching. -/
def matches_project_filter (project_path : Str) (project_query : Str) : Bool :=
  if project_query = [] then true
  else pySub (pyLower project_query) (pyLower project_path)

/-- A Python `datetime`: a wall-clock instant (an integer number of time
units) plus the `tzinfo` UTC offset, `none` when naive. -/
structure PyDT where
  wall : Int
  off : Option Int
deriving DecidableEq, Repr

/-- The UTC-naive instant of a datetime: `astimezone(utc).replace(tzinfo=None)`
subtracts the offset; a naive value is assumed UTC.  This is
`normalize_datetime` (lines 334-344) with its default `assume_local=False`,
the only mode the filter and indexing paths use. -/
def normPyDT (d : PyDT) : Int := d.wall - d.off.getD 0

/-- Lifts `normPyDT` to optional datetimes, as `normalize_datetime` does. -/
def normalize_datetime : Option PyDT → Option Int
  | none => none
  | some d => some (normPyDT d)

/-- Embeds `matches_date_range` (lines 403-416).  A `datetime` object is
always truthy in Python, so `if since_cmp and ...` tests `since ≠ None`. -/
def matches_date_range (start_time since untl : Option PyDT) : Bool :=
  match since, untl with
  | none, none => true
  | _, _ =>
    match start_time with
    | none => false
    | some st =>
      let start_cmp := normPyDT st
      if (since.map normPyDT).any (fun s => decide (start_cmp < s)) then false
      else if (untl.map normPyDT).any (fun u => decide (u < start_cmp)) then false
      else true

/-- C3: `matches_date_range` is inclusive on both bounds.  The theorem fully
characterizes the predicate: it accepts everything when neither bound is
set; with at least one bound set it rejects a missing `startTime`, and
otherwise accepts exactly when the UTC-normalized start is `≥` the
normalized `since` (when set) and `≤` the normalized `until` (when set) —
both comparisons non-strict, so a start exactly equal to either bound is
accepted and one beyond either bound is rejected. -/
theorem spec_C3_date_range_inclusive (start_time since untl : Option PyDT) :
    matches_date_range start_time since untl = true ↔
      ((since = none ∧ untl = none) ∨
        (∃ st, start_time = some st ∧
          (∀ s, since = some s → normPyDT s ≤ normPyDT st) ∧
          (∀ u, untl = some u → normPyDT st ≤ normPyDT u))) := by
  cases since <;> cases untl <;> cases start_time <;>
    simp [matches_date_range]

theorem foldl_insert_filter (p : Str → Bool) (tokens : List Str) (found : Finset Str) :
    tokens.foldl (fun fd token => if token ∉ fd ∧ p token then insert token fd else fd) found
      = found ∪ (tokens.filter p).toFinset := by
  induction tokens generalizing found with
  | nil => simp
  | cons t ts ih =>
    simp only [List.foldl_cons]
    by_cases hp : p t
    · by_cases hf : t ∈ found
      · rw [if_neg (by simp [hf]), ih]
        ext x
        simp only [List.filter_cons, hp, if_pos, Finset.mem_union, List.mem_toFinset,
          List.mem_cons]
        constructor
        · tauto
        · rintro (h | (rfl | h)) <;> tauto
      · rw [if_pos ⟨hf, hp⟩, ih]
        ext x
        simp only [List.filter_cons, hp, if_pos, Finset.mem_union, Finset.mem_insert,
          List.mem_toFinset, List.mem_cons]
        tauto
    · rw [if_neg (by tauto), ih, List.filter_cons, if_neg (by simp [hp])]

theorem update_search_hits_found_ne (tokens : List Str) (found : Finset Str) {text : Str}
    (htext : text ≠ []) :
    (update_search_hits tokens found text).1 =
      found ∪ (tokens.filter (fun t => pySub t (pyLower text))).toFinset := by
  by_cases htok : tokens = []
  · subst htok; simp [update_search_hits]
  · rw [update_search_hits, if_neg (by tauto)]
    exact foldl_insert_filter _ tokens found

theorem update_search_hits_bool_ne (tokens : List Str) (found : Finset Str) {text : Str}
    (htext : text ≠ []) (htok : tokens ≠ []) :
    (update_search_hits tokens found text).2 =
      ((update_search_hits tokens found text).1.card == tokens.length) := by
  rw [update_search_hits, if_neg (by tauto)]

theorem feed_chunks_nil_tokens (chunks : List Str) : feed_chunks [] chunks = (∅, false) := by
  unfold feed_chunks
  induction chunks with
  | nil => rfl
  | cons c cs ih => simpa [update_search_hits] using ih

theorem feed_chunks_found_aux (tokens : List Str) :
    ∀ (chunks : List Str), (∀ c ∈ chunks, c ≠ []) →
      ∀ (found : Finset Str) (b : Bool),
        (chunks.foldl (fun acc chunk => update_search_hits tokens acc.1 chunk) (found, b)).1 =
          found ∪ (tokens.filter (fun t => chunks.any (fun c => pySub t (pyLower c)))).toFinset
  | [], _, found, b => by simp
  | c :: cs, h, found, b => by
    have hc : c ≠ [] := h c (List.mem_cons_self c cs)
    have hcs : ∀ x ∈ cs, x ≠ [] := fun x hx => h x (List.mem_cons_of_mem c hx)
    simp only [List.foldl_cons]
    rw [feed_chunks_found_aux tokens cs hcs]
    rw [update_search_hits_found_ne tokens found hc]
    ext x
    simp only [Finset.mem_union, List.mem_toFinset, List.mem_filter, List.any_cons,
      Bool.or_eq_true]
    tauto

theorem feed_chunks_found (tokens : List Str) {chunks : List Str}
    (h : ∀ c ∈ chunks, c ≠ []) :
    (feed_chunks tokens chunks).1 =
      (tokens.filter (fun t => chunks.any (fun c => pySub t (pyLower c)))).toFinset := by
  have := feed_chunks_found_aux tokens chunks h ∅ false
  simpa [feed_chunks] using this

theorem feed_chunks_bool (tokens : List Str) :
    ∀ (chunks : List Str), chunks ≠ [] → (∀ c ∈ chunks, c ≠ []) → tokens ≠ [] →
      ∀ (found : Finset Str) (b : Bool),
        (chunks.foldl (fun acc chunk => update_search_hits tokens acc.1 chunk) (found, b)).2 =
          ((chunks.foldl (fun acc chunk => update_search_hits tokens acc.1 chunk)
              (found, b)).1.card == tokens.length)
  | [], hne, _, _, _, _ => absurd rfl hne
  | [c], _, h, htok, found, b => by
    have hc : c ≠ [] := h c (List.mem_cons_self c [])
    simp only [List.foldl_cons, List.foldl_nil]
    exact update_search_hits_bool_ne tokens found hc htok
  | c :: c' :: cs, _, h, htok, found, b => by
    have hcs : ∀ x ∈ c' :: cs, x ≠ [] := fun x hx => h x (List.mem_cons_of_mem c hx)
    have := feed_chunks_bool tokens (c' :: cs) (by simp) hcs htok
      (update_search_hits tokens found c).1 (update_search_hits tokens found c).2
    simpa only [List.foldl_cons] using this

theorem feed_chunks_def (tokens chunks : List Str) :
    feed_chunks tokens chunks =
      chunks.foldl (fun acc chunk => update_search_hits tokens acc.1 chunk) (∅, false) := rfl

/-- C2 counterexample.  The claim quantifies over every token list and
every chunk sequence, but (i) with the duplicate token list
`["ab", "ab"]` and the single chunk `"ab"`, every token is a substring of
a fed chunk and the found-set size (1) equals the token-set size (1), yet
the call returns `false`, because the source compares `len(found)`
against `len(tokens)`, the token-list length 2; and (ii) after a full
match on tokens `["ab"]`, feeding the empty chunk `""` returns `false`
rather than still reporting full match, because of the
`if not tokens or not text` guard. -/
theorem spec_C2_counterexample :
    (∀ tok ∈ ([['a', 'b'], ['a', 'b']] : List Str),
        ∃ c ∈ ([['a', 'b']] : List Str), tok <:+: pyLower c)
    ∧ ((feed_chunks [['a', 'b'], ['a', 'b']] [['a', 'b']]).1.card = 1)
    ∧ ((feed_chunks [['a', 'b'], ['a', 'b']] [['a', 'b']]).2 = false)
    ∧ ((feed_chunks [['a', 'b']] [['a', 'b']]).2 = true)
    ∧ ((update_search_hits [['a', 'b']] (feed_chunks [['a', 'b']] [['a', 'b']]).1 []).2
        = false) := by
  decide

/-- C2 (amended): for every duplicate-free token list and every sequence
of nonempty chunks fed through `update_search_hits` with a shared
found-set starting empty, the final call returns `true` exactly when the
token list is nonempty and every token is a substring of the lowercasing
of some chunk fed so far; an empty token set always returns `false`
(no active filter); and feeding any further nonempty chunk after full
match is a no-op on the found-set that still reports full match. -/
theorem spec_C2_token_matcher (tokens chunks : List Str)
    (hnd : tokens.Nodup) (hne : ∀ c ∈ chunks, c ≠ []) :
    ((feed_chunks tokens chunks).2 = true ↔
        (tokens ≠ [] ∧ ∀ t ∈ tokens, ∃ c ∈ chunks, t <:+: pyLower c))
    ∧ (∀ (found : Finset Str) (c : Str), update_search_hits [] found c = (found, false))
    ∧ (∀ c, c ≠ [] → (feed_chunks tokens chunks).2 = true →
        update_search_hits tokens (feed_chunks tokens chunks).1 c =
          ((feed_chunks tokens chunks).1, true)) := by
  have hfoundcard : (feed_chunks tokens chunks).2 = true →
      (feed_chunks tokens chunks).1.card = tokens.length := by
    intro h2
    have htok : tokens ≠ [] := by
      rintro rfl
      rw [feed_chunks_nil_tokens] at h2
      exact Bool.false_ne_true h2
    have hch : chunks ≠ [] := by
      rintro rfl
      simp [feed_chunks] at h2
    have hbool := feed_chunks_bool tokens chunks hch hne htok ∅ false
    rw [feed_chunks_def, hbool, beq_iff_eq] at h2
    rw [feed_chunks_def]
    exact h2
  refine ⟨?_, ?_, ?_⟩
  · constructor
    · intro h2
      have htok : tokens ≠ [] := by
        rintro rfl
        rw [feed_chunks_nil_tokens] at h2
        exact Bool.false_ne_true h2
      refine ⟨htok, ?_⟩
      have hcard := hfoundcard h2
      rw [feed_chunks_found tokens hne] at hcard
      have hfe : (tokens.filter (fun t => chunks.any (fun c => pySub t (pyLower c)))).length
          = tokens.length := by
        rw [← List.toFinset_card_of_nodup (hnd.filter _)]
        exact hcard
      have hfeq := (List.filter_sublist
        (p := fun t => chunks.any (fun c => pySub t (pyLower c))) tokens).eq_of_length hfe
      intro t ht
      have := List.filter_eq_self.mp hfeq t ht
      rw [List.any_eq_true] at this
      obtain ⟨c, hc, hsub⟩ := this
      exact ⟨c, hc, of_decide_eq_true hsub⟩
    · rintro ⟨htok, hall⟩
      have hch : chunks ≠ [] := by
        rintro rfl
        obtain ⟨t, ht⟩ := List.exists_mem_of_ne_nil tokens htok
        obtain ⟨c, hc, -⟩ := hall t ht
        exact (List.not_mem_nil c) hc
      rw [feed_chunks_def, feed_chunks_bool tokens chunks hch hne htok ∅ false,
        ← feed_chunks_def, feed_chunks_found tokens hne]
      have hfeq : tokens.filter (fun t => chunks.any (fun c => pySub t (pyLower c)))
          = tokens := by
        rw [List.filter_eq_self]
        intro t ht
        obtain ⟨c, hc, hsub⟩ := hall t ht
        rw [List.any_eq_true]
        exact ⟨c, hc, decide_eq_true hsub⟩
      rw [hfeq, List.toFinset_card_of_nodup hnd, beq_iff_eq]
  · intro found c
    simp [update_search_hits]
  · intro c hc h2
    have htok : tokens ≠ [] := by
      rintro rfl
      rw [feed_chunks_nil_tokens] at h2
      exact Bool.false_ne_true h2
    have hcard := hfoundcard h2
    have hsub : (feed_chunks tokens chunks).1 ⊆ tokens.toFinset := by
      rw [feed_chunks_found tokens hne]
      intro x hx
      rw [List.mem_toFinset] at hx ⊢
      exact (List.mem_filter.mp hx).1
    have hfull : (feed_chunks tokens chunks).1 = tokens.toFinset := by
      refine Finset.eq_of_subset_of_card_le hsub ?_
      rw [hcard, List.toFinset_card_of_nodup hnd]
    rw [Prod.ext_iff]
    constructor
    · rw [update_search_hits_found_ne tokens _ hc]
      rw [Finset.union_eq_left]
      intro x hx
      rw [List.mem_toFinset] at hx
      rw [hfull, List.mem_toFinset]
      exact (List.mem_filter.mp hx).1
    · rw [update_search_hits_bool_ne tokens _ hc htok,
        update_search_hits_found_ne tokens _ hc]
      have : (feed_chunks tokens chunks).1 ∪
          (tokens.filter (fun t => pySub t (pyLower c))).toFinset
            = (feed_chunks tokens chunks).1 := by
        rw [Finset.union_eq_left]
        intro x hx
        rw [List.mem_toFinset] at hx
        rw [hfull, List.mem_toFinset]
        exact (List.mem_filter.mp hx).1
      rw [this, hcard, beq_iff_eq]

/-- Witness for `spec_C2_token_matcher` at tokens `["ab", "c"]` and chunks
`["xAb", "cd"]`: the hypotheses hold and the matcher reports a full match. -/
theorem spec_C2_token_matcher_witness :
    (([['a', 'b'], ['c']] : List Str).Nodup
      ∧ (∀ c ∈ ([['x', 'A', 'b'], ['c', 'd']] : List Str), c ≠ []))
    ∧ (((feed_chunks [['a', 'b'], ['c']] [['x', 'A', 'b'], ['c', 'd']]).2 = true ↔
          (([['a', 'b'], ['c']] : List Str) ≠ [] ∧
            ∀ t ∈ ([['a', 'b'], ['c']] : List Str),
              ∃ c ∈ ([['x', 'A', 'b'], ['c', 'd']] : List Str), t <:+: pyLower c))
        ∧ (∀ (found : Finset Str) (c : Str), update_search_hits [] found c = (found, false))
        ∧ (∀ c, c ≠ [] →
            (feed_chunks [['a', 'b'], ['c']] [['x', 'A', 'b'], ['c', 'd']]).2 = true →
            update_search_hits [['a', 'b'], ['c']]
                (feed_chunks [['a', 'b'], ['c']] [['x', 'A', 'b'], ['c', 'd']]).1 c =
              ((feed_chunks [['a', 'b'], ['c']] [['x', 'A', 'b'], ['c', 'd']]).1, true))) :=
  ⟨⟨by decide, by decide⟩,
    spec_C2_token_matcher [['a', 'b'], ['c']] [['x', 'A', 'b'], ['c', 'd']]
      (by decide) (by decide)⟩

/-- Embeds the `SessionFilter` dataclass (lines 249-264); `untl` models the
source's `until` field. -/
structure SessionFilter where
  search : Str
  project : Str
  since : Option PyDT
  untl : Option PyDT
deriving DecidableEq, Repr

/-- Embeds `SessionFilter.has_search`: `bool(self.search.strip())`. -/
def SessionFilter.has_search (f : SessionFilter) : Bool := !(pyStrip f.search).isEmpty

/-- Embeds `SessionFilter.has_project`: `bool(self.project.strip())`. -/
def SessionFilter.has_project (f : SessionFilter) : Bool := !(pyStrip f.project).isEmpty

/-- Embeds `SessionFilter.has_date_range`. -/
def SessionFilter.has_date_range (f : SessionFilter) : Bool :=
  f.since.isSome || f.untl.isSome

/-- Embeds the `SessionInfo` dataclass (lines 231-246) restricted to the
fields the indexer and query paths consume (`topics` and `user_messages`
are display-only). -/
structure SessionRec where
  tool : Str
  session_id : Str
  project_path : Str
  start_time : Option PyDT
  last_time : Option PyDT
  message_count : Int
  first_message : Str
  summary : Str
  file_path : Str
  file_size : Int
  model : Str
deriving DecidableEq, Repr

/-- Stat data plus the text that the owning parser's `extract_search_text`
yields for the file (lines 681-706 and 882-905; `""` on read errors).
`st_mtime` is truncated to an integer by the source (line 992). -/
structure FileInfo where
  size : Int
  mtime : Int
  searchText : Str
deriving DecidableEq, Repr

/-- The filesystem at index time; `none` models `FileNotFoundError` from
`Path(file_path).stat()`. -/
abbrev FS := Str → Option FileInfo

/-- One row of the `sessions` table (schema lines 917-933).  The stored
`start_time`/`last_time` TEXT columns hold ISO strings of UTC-naive
datetimes whose lexicographic order is chronological order, so they are
modelled as the normalized instants, `none` being SQL NULL. -/
structure Row where
  id : Nat
  tool : Str
  session_id : Str
  project_path : Str
  start_time : Option Int
  last_time : Option Int
  message_count : Int
  first_message : Str
  summary : Str
  file_path : Str
  file_size : Int
  model : Str
  mtime : Int
deriving DecidableEq, Repr

/-- One row of the `sessions_fts` virtual table (schema lines 937-940). -/
structure FtsRow where
  rowid : Nat
  content : Str
  project_path : Str
  session_id : Str
  tool : Str
deriving DecidableEq, Repr

/-- The SQLite store: both tables plus the fresh-rowid allocator, modelled
as a counter strictly above every id ever handed out. -/
structure Store where
  sessions : List Row
  fts : List FtsRow
  next_id : Nat
deriving DecidableEq, Repr

def emptyStore : Store := { sessions := [], fts := [], next_id := 1 }

/-- The `ReconcileStats` counters returned by `build_index`
(lines 962-968). -/
structure Stats where
  scanned : Nat
  indexed : Nat
  skipped : Nat
  removed : Nat
  errors : Nat
deriving DecidableEq, Repr

/-- One value of the pre-run identity map built by `_load_existing`
(lines 942-953). -/
structure ExistingEntry where
  id : Nat
  file_size : Int
  mtime : Int
deriving DecidableEq, Repr

/-- Embeds `_load_existing`: `file_path -> (id, file_size, mtime)` over the
pre-run store. -/
def load_existing (s : Store) (p : Str) : Option ExistingEntry :=
  (s.sessions.find? (fun row => row.file_path == p)).map
    (fun row => { id := row.id, file_size := row.file_size, mtime := row.mtime })

/-- The parsers known to the indexer, by tool key (`self.parsers`,
line 913); `parsers.get(session.tool)` is a membership test here because
each parser's text extraction is carried by `FileInfo.searchText`. -/
abbrev Parsers := List Str

/-- A fatal storage-layer error: the UNIQUE constraint on
`sessions.file_path` rejecting an INSERT. -/
inductive StorageError where
  | uniqueViolation (path : Str)
deriving DecidableEq, Repr

/-- UPDATE sessions ... WHERE id = ? (lines 1013-1033). -/
def Store.updateRow (s : Store) (id : Nat) (new : Row) : Store :=
  { s with sessions := s.sessions.map (fun row => if row.id = id then new else row) }

/-- DELETE FROM sessions WHERE id = ? (line 1071). -/
def Store.deleteSession (s : Store) (id : Nat) : Store :=
  { s with sessions := s.sessions.filter (fun row => row.id != id) }

/-- DELETE FROM sessions_fts WHERE rowid = ? (lines 1056, 1072). -/
def Store.ftsDelete (s : Store) (id : Nat) : Store :=
  { s with fts := s.fts.filter (fun fr => fr.rowid != id) }

/-- INSERT INTO sessions_fts (rowid, ...) VALUES (?, ...) (lines 1057-1066). -/
def Store.ftsInsert (s : Store) (fr : FtsRow) : Store :=
  { s with fts := s.fts ++ [fr] }

/-- The structured row written for a scanned record (upsert columns,
lines 1004-1053): times are stored normalized (`format_datetime` with its
default `assume_local=False`), and size/mtime come from the fresh stat. -/
def mkRow (r : SessionRec) (fi : FileInfo) (id : Nat) : Row :=
  { id := id, tool := r.tool, session_id := r.session_id,
    project_path := r.project_path,
    start_time := normalize_datetime r.start_time,
    last_time := normalize_datetime r.last_time,
    message_count := r.message_count, first_message := r.first_message,
    summary := r.summary, file_path := r.file_path, file_size := fi.size,
    model := r.model, mtime := fi.mtime }

/-- The search document written next to the structured row
(lines 1057-1066). -/
def mkFtsRow (r : SessionRec) (fi : FileInfo) (id : Nat) : FtsRow :=
  { rowid := id, content := fi.searchText, project_path := r.project_path,
    session_id := r.session_id, tool := r.tool }

/-- One iteration of the reconcile loop of `build_index` (lines 977-1067)
for a single scanned record: empty path, vanished file and unknown parser
count as errors; an unchanged `(file_size, mtime)` fingerprint against the
pre-run map counts as skipped; otherwise the structured row is upserted
(UPDATE keyed by the pre-run row id, or INSERT allocating a fresh id) and
the search document is deleted and re-inserted under the same id.  An
INSERT whose path already exists in the live table (possible when the same
path occurs twice in one scan, since the identity map is pre-run) violates
the UNIQUE constraint and raises. -/
def build_step (fs : FS) (parsers : Parsers) (existing : Str → Option ExistingEntry)
    (acc : Store × Stats) (r : SessionRec) : Except StorageError (Store × Stats) :=
  let s := acc.1
  let st := acc.2
  if r.file_path = [] then .ok (s, { st with errors := st.errors + 1 })
  else
    match fs r.file_path with
    | none => .ok (s, { st with errors := st.errors + 1 })
    | some fi =>
      match existing r.file_path with
      | some ent =>
        if ent.file_size = fi.size ∧ ent.mtime = fi.mtime then
          .ok (s, { st with skipped := st.skipped + 1 })
        else if r.tool ∈ parsers then
          let s1 := s.updateRow ent.id (mkRow r fi ent.id)
          let s2 := (s1.ftsDelete ent.id).ftsInsert (mkFtsRow r fi ent.id)
          .ok (s2, { st with indexed := st.indexed + 1 })
        else .ok (s, { st with errors := st.errors + 1 })
      | none =>
        if r.tool ∈ parsers then
          if s.sessions.any (fun row => row.file_path == r.file_path) then
            .error (.uniqueViolation r.file_path)
          else
            let s1 := { s with sessions := s.sessions ++ [mkRow r fi s.next_id],
                               next_id := s.next_id + 1 }
            let s2 := (s1.ftsDelete s.next_id).ftsInsert (mkFtsRow r fi s.next_id)
            .ok (s2, { st with indexed := st.indexed + 1 })
        else .ok (s, { st with errors := st.errors + 1 })

/-- The reconcile loop; an error short-circuits, as an uncaught exception
does inside the `with conn:` block. -/
def build_loop (fs : FS) (parsers : Parsers) (existing : Str → Option ExistingEntry) :
    List SessionRec → Store × Stats → Except StorageError (Store × Stats)
  | [], acc => .ok acc
  | r :: rest, acc =>
    match build_step fs parsers existing acc r with
    | .error e => .error e
    | .ok acc' => build_loop fs parsers existing rest acc'

/-- The `seen_paths` set at the end of the loop: every scanned record's
path is added before the stat (so vanished files still count as seen);
only records with an empty path are skipped beforehand (lines 979-982). -/
def seenPaths (recs : List SessionRec) : List Str :=
  (recs.filter (fun r => !r.file_path.isEmpty)).map (fun r => r.file_path)

/-- The pruning pass (lines 1069-1073): every pre-run entry whose path was
not seen this run is deleted from both tables and counted as removed.
The source iterates the pre-run `existing` dict, i.e. the pre-run session
rows (unique by path under the UNIQUE constraint). -/
def removal_pass (seen : List Str) : List Row → Store × Stats → Store × Stats
  | [], acc => acc
  | row :: rest, (s, st) =>
    if row.file_path ∈ seen then removal_pass seen rest (s, st)
    else removal_pass seen rest
      ((s.deleteSession row.id).ftsDelete row.id, { st with removed := st.removed + 1 })

/-- Embeds `SessionIndexer.build_index` (lines 955-1076).  The caller's
`sessions_by_tool` dict is flattened into `recs` (lines 957-959).  The
`with conn:` block makes the run one transaction, so a storage error
yields no store at all (rollback); stats are only returned on success. -/
def build_index (recs : List SessionRec) (s0 : Store) (fs : FS) (parsers : Parsers) :
    Except StorageError (Store × Stats) :=
  let stats0 : Stats :=
    { scanned := recs.length, indexed := 0, skipped := 0, removed := 0, errors := 0 }
  match build_loop fs parsers (load_existing s0) recs (s0, stats0) with
  | .error e => .error e
  | .ok acc => .ok (removal_pass (seenPaths recs) s0.sessions acc)

/-- The on-disk store after a `build_index` call: the transaction commits
the new store on success and rolls back to the pre-run store when the run
aborts with a storage error (`with conn:` semantics, line 976). -/
def committed_store (recs : List SessionRec) (s0 : Store) (fs : FS) (parsers : Parsers) :
    Store :=
  match build_index recs s0 fs parsers with
  | .ok (s, _) => s
  | .error _ => s0

/-- SQLite `LIKE`: `%` matches any run of characters, `_` exactly one, and
ordinary characters compare after ASCII-only case folding (SQLite's
default `LIKE` folds only `A`-`Z`, which `Char.toLower` is). -/
def likeMatch : Str → Str → Bool
  | [], s => s.isEmpty
  | p :: ps, s =>
    if p = '%' then
      likeMatch ps s ||
        (match s with
         | [] => false
         | _ :: s' => likeMatch (p :: ps) s')
    else
      match s with
      | [] => false
      | c :: s' =>
        if p = '_' then likeMatch ps s'
        else (p.toLower == c.toLower) && likeMatch ps s'
termination_by p s => p.length + s.length

/-- The FTS5 `unicode61` tokenizer restricted to ASCII: split on
non-alphanumeric characters and lowercase.  It is applied only to concrete
ASCII inputs here, where the restriction is exact. -/
def ftsWords (s : Str) : List Str :=
  (wordsBy Char.isAlphanum s).map (fun w => w.map Char.toLower)

/-- The words of a search document across all four indexed columns. -/
def ftsDocWords (fr : FtsRow) : List Str :=
  ftsWords fr.content ++ ftsWords fr.project_path ++ ftsWords fr.session_id ++
    ftsWords fr.tool

/-- An FTS5 MATCH of the AND-query built by `build_fts_query`
(lines 274-279): every query token must occur as a whole word in some
column of the document row.  Query tokens are assumed word-shaped and
lowercase, which holds for the concrete inputs used. -/
def fts_match (tokens : List Str) (fr : FtsRow) : Bool :=
  tokens.all (fun t => (ftsDocWords fr).contains t)

/-- The literal tool key `"all"`. -/
def allKey : Str := ['a', 'l', 'l']

/-- The WHERE clause of `SessionIndexer.query` (lines 1085-1115) on one
stored row: the FTS MATCH joins `sessions_fts` on `rowid = s.id`; the
project clause is `LIKE '%' + project.strip() + '%'`; the date clauses
compare the stored start instant, SQL NULL failing every comparison; and
`tool != "all"` adds an equality clause. -/
def sql_accept (f : SessionFilter) (tool : Str) (ftsTable : List FtsRow) (row : Row) :
    Bool :=
  let tokens := build_search_tokens f.search
  (tokens.isEmpty || ftsTable.any (fun fr => fr.rowid == row.id && fts_match tokens fr)) &&
  (!f.has_project || likeMatch ('%' :: (pyStrip f.project ++ ['%'])) row.project_path) &&
  (!f.has_date_range ||
    ((match f.since with
      | none => true
      | some sv =>
        match row.start_time with
        | none => false
        | some rt => decide (normPyDT sv ≤ rt)) &&
     (match f.untl with
      | none => true
      | some uv =>
        match row.start_time with
        | none => false
        | some rt => decide (rt ≤ normPyDT uv)))) &&
  (tool == allKey || row.tool == tool)

/-- ORDER BY COALESCE(s.last_time, s.start_time) DESC (line 1122): the sort
key of a stored row; `⊥` is SQL NULL, which sorts last under DESC. -/
def rowKey (row : Row) : WithBot Int :=
  match row.last_time with
  | some t => (t : WithBot Int)
  | none =>
    match row.start_time with
    | some t => (t : WithBot Int)
    | none => ⊥

/-- Row `a` may precede row `b` in the descending output order. -/
def rowGE (a b : Row) : Prop := rowKey b ≤ rowKey a

instance : DecidableRel rowGE := fun a b =>
  inferInstanceAs (Decidable (rowKey b ≤ rowKey a))

/-- The engine's ordered output (any sort satisfying ORDER BY works;
insertion sort realizes it). -/
def sortRowsDesc (rows : List Row) : List Row := rows.insertionSort rowGE

/-- Embeds `SessionIndexer.query` (lines 1078-1147).  `db = none` models a
missing database file, returning `[]` before touching storage
(lines 1080-1081).  `LIMIT` is applied to the ordered rows.  The source
materializes each row into a `SessionInfo` field-by-field; the rows
themselves are returned here. -/
def queryStore (db : Option Store) (f : SessionFilter) (tool : Str) (lim : Option Nat) :
    List Row :=
  match db with
  | none => []
  | some s =>
    let rows := s.sessions.filter (sql_accept f tool s.fts)
    let sorted := sortRowsDesc rows
    match lim with
    | none => sorted
    | some n => sorted.take n

/-- The streaming path's acceptance of one scanned record under a filter:
tool scope (the caller picks parsers by tool key), the project gate
(lines 602-604, 829-831), the date gate (lines 606-608, 833-835), and the
token matcher fed the parser's `extract_search_text` output for the
record's file (the per-message chunks concatenated; tokens contain no
whitespace, so one joined chunk matches exactly when the chunk sequence
does). -/
def stream_accept (fs : FS) (f : SessionFilter) (tool : Str) (r : SessionRec) : Bool :=
  let tokens := build_search_tokens f.search
  let text := match fs r.file_path with
    | some fi => fi.searchText
    | none => []
  (tool == allKey || r.tool == tool) &&
  (!f.has_project || matches_project_filter r.project_path (pyStrip f.project)) &&
  (!f.has_date_range || matches_date_range r.start_time f.since f.untl) &&
  (tokens.isEmpty || (update_search_hits tokens ∅ text).2)

/-- A Claude session file, restricted to what `get_sessions` needs for
ordering: the optional timestamp of each line (lines 553-562 set
`start_time` on the first timestamped line and `last_time` on every one),
the content gates (non-empty `first_message`, project/date/search filters,
parse exceptions) folded into one `keep` flag, and the remaining record
fields. -/
structure ClaudeFile where
  stamps : List (Option PyDT)
  keep : Bool
  base : SessionRec
deriving DecidableEq, Repr

/-- The first timestamped line's value (`start_time`, lines 558-559). -/
def claudeStart (stamps : List (Option PyDT)) : Option PyDT := (stamps.filterMap id).head?

/-- The last timestamped line's value (`last_time`, line 560). -/
def claudeLast (stamps : List (Option PyDT)) : Option PyDT := (stamps.filterMap id).getLast?

/-- Embeds `_parse_session_file` for Claude as far as the produced record's
identity and times go (lines 531-631 produce `None` when filtered out). -/
def claudeParse (cf : ClaudeFile) : Option SessionRec :=
  if cf.keep then
    some { cf.base with
      start_time := claudeStart cf.stamps, last_time := claudeLast cf.stamps }
  else none

/-- Python `datetime.min` as an instant: the smallest representable
datetime; every Python datetime's wall clock is at or above it. -/
def datetimeMin : Int := -62135596800

/-- The parsers' sort key (lines 526, 752):
`s.last_time.replace(tzinfo=None) if s.last_time else datetime.min`, i.e.
the wall clock with the offset dropped (not converted), with
`datetime.min` as the default. -/
def lastWallKey (r : SessionRec) : Int :=
  match r.last_time with
  | some t => t.wall
  | none => datetimeMin

/-- Record `a` may precede record `b` under the parsers' descending sort. -/
def lastWallGE (a b : SessionRec) : Prop := lastWallKey b ≤ lastWallKey a

instance : DecidableRel lastWallGE := fun a b =>
  inferInstanceAs (Decidable (lastWallKey b ≤ lastWallKey a))

/-- Python's slice `sessions[:limit]` guarded by `if limit is None`. -/
def takeLim (lim : Option Nat) (l : List SessionRec) : List SessionRec :=
  match lim with
  | none => l
  | some n => l.take n

/-- Embeds `ClaudeSessionParser.get_sessions` (lines 504-529): parse every
candidate file, sort descending by the last-activity wall clock, then
truncate to `limit`. -/
def claude_get_sessions (files : List ClaudeFile) (lim : Option Nat) : List SessionRec :=
  takeLim lim ((files.filterMap claudeParse).insertionSort lastWallGE)

/-- One line of a Codex session file, as far as time handling goes. -/
inductive CodexLine where
  | meta (ts : Option PyDT)
  | userMsg (ts : Option PyDT)
  | other
deriving DecidableEq, Repr

/-- Folds the timestamp updates of Codex `_parse_session_file`
(lines 780-810): a `session_meta` line with a parsable timestamp
overwrites `start_time`; a user message with one overwrites `last_time`. -/
def codexTimes : List CodexLine → Option PyDT → Option PyDT → Option PyDT × Option PyDT
  | [], st, lt => (st, lt)
  | .meta ts :: rest, st, lt =>
    codexTimes rest (match ts with | some t => some t | none => st) lt
  | .userMsg ts :: rest, st, lt =>
    codexTimes rest st (match ts with | some t => some t | none => lt)
  | .other :: rest, st, lt => codexTimes rest st lt

/-- A Codex session file; `keep` folds the content gates as for Claude. -/
structure CodexFile where
  lines : List CodexLine
  keep : Bool
  base : SessionRec
deriving DecidableEq, Repr

/-- Embeds Codex `_parse_session_file` (lines 757-858); the constructed
record's `last_time` is `last_time or start_time` (line 848). -/
def codexParse (cf : CodexFile) : Option SessionRec :=
  if cf.keep then
    let tl := codexTimes cf.lines none none
    some { cf.base with
      start_time := tl.1,
      last_time := match tl.2 with | some t => some t | none => tl.1 }
  else none

/-- Embeds `CodexSessionParser.get_sessions` (lines 723-755): the nested
directory loops break out as soon as `limit` sessions have been collected
(in directory iteration order, the inner `take`), and only the collected
ones are sorted and sliced. -/
def codex_get_sessions (files : List CodexFile) (lim : Option Nat) : List SessionRec :=
  takeLim lim ((takeLim lim (files.filterMap codexParse)).insertionSort lastWallGE)

/-- The ordering the spec claims for result sequences: descending by
`lastActivityTime`, falling back to `startTime` when absent, records with
neither timestamp last; instants compared after UTC normalization. -/
def claimKey (r : SessionRec) : WithBot Int :=
  match r.last_time with
  | some t => (normPyDT t : WithBot Int)
  | none =>
    match r.start_time with
    | some t => (normPyDT t : WithBot Int)
    | none => ⊥

/-- Record `a` may precede record `b` under the claimed ordering. -/
def claimGE (a b : SessionRec) : Prop := claimKey b ≤ claimKey a

/-- The claimed ordering on stored rows (same key as `rowKey`). -/
def claimRowGE (a b : Row) : Prop := rowKey b ≤ rowKey a

/-- C9: querying against a database path that does not exist returns an
empty result list for every filter, tool scope and limit, and (being a
total function into lists) raises no error. -/
theorem spec_C9_missing_store_query (f : SessionFilter) (tool : Str) (lim : Option Nat) :
    queryStore none f tool lim = [] := rfl

/-- The tool key `"claude"`. -/
def claudeKey : Str := ['c', 'l', 'a', 'u', 'd', 'e']

def c1path : Str := ['p']

/-- A scanned record whose file contains the single message `"world"`. -/
def c1rec : SessionRec :=
  { tool := claudeKey, session_id := ['s'], project_path := [],
    start_time := none, last_time := none, message_count := 1,
    first_message := ['w'], summary := [], file_path := c1path, file_size := 5,
    model := [] }

def c1fs : FS := fun p =>
  if p = c1path then some { size := 5, mtime := 1, searchText := ['w', 'o', 'r', 'l', 'd'] }
  else none

def c1parsers : Parsers := [claudeKey]

/-- A filter searching for `"worl"`. -/
def c1filter : SessionFilter :=
  { search := ['w', 'o', 'r', 'l'], project := [], since := none, untl := none }

/-- C1 counterexample: with search token `"worl"` over a single file whose
text is `"world"`, the streaming matcher accepts the record (substring
containment), while the indexed path — the index built by `build_index`
from the same file, queried through the stored-clause translation — rejects
it, because FTS MATCH compares whole words.  The two accepted
`sourcePath` sets differ, refuting the claimed equivalence. -/
theorem spec_C1_counterexample :
    (([c1rec].filter (stream_accept c1fs c1filter allKey)).map SessionRec.file_path
        = [c1path])
    ∧ ((build_index [c1rec] emptyStore c1fs c1parsers).toOption.map
          (fun acc => (queryStore (some acc.1) c1filter allKey none).map Row.file_path)
        = some []) := by
  decide

/-- The tool key `"codex"`. -/
def codexKey : Str := ['c', 'o', 'd', 'e', 'x']

def c7base : SessionRec :=
  { tool := codexKey, session_id := ['x'], project_path := [],
    start_time := none, last_time := none, message_count := 1,
    first_message := ['m'], summary := [], file_path := ['f', '1'], file_size := 0,
    model := [] }

/-- A Codex file whose session starts and ends at instant 10. -/
def c7f1 : CodexFile :=
  { lines := [.meta (some ⟨10, some 0⟩), .userMsg (some ⟨10, some 0⟩)],
    keep := true, base := c7base }

/-- A later Codex file (instant 20), encountered second in directory
iteration order. -/
def c7f2 : CodexFile :=
  { lines := [.meta (some ⟨20, some 0⟩), .userMsg (some ⟨20, some 0⟩)],
    keep := true,
    base := { c7base with file_path := ['f', '2'], session_id := ['y'] } }

/-- C7 counterexample: `CodexSessionParser.get_sessions` with `limit = 1`
stops collecting after the first matching file in directory order, so it
returns the instant-10 session even though the instant-20 session sorts
first; truncating the fully-ordered sequence instead yields the other
record, refuting the claim that a limit truncates only after ordering. -/
theorem spec_C7_counterexample :
    codex_get_sessions [c7f1, c7f2] (some 1)
        ≠ (codex_get_sessions [c7f1, c7f2] none).take 1
    ∧ (codex_get_sessions [c7f1, c7f2] (some 1)).map SessionRec.file_path
        = [['f', '1']]
    ∧ ((codex_get_sessions [c7f1, c7f2] none).take 1).map SessionRec.file_path
        = [['f', '2']] := by
  decide

def initStats (n : Nat) : Stats :=
  { scanned := n, indexed := 0, skipped := 0, removed := 0, errors := 0 }

theorem build_index_eq (recs : List SessionRec) (s0 : Store) (fs : FS) (parsers : Parsers) :
    build_index recs s0 fs parsers =
      match build_loop fs parsers (load_existing s0) recs (s0, initStats recs.length) with
      | .error e => .error e
      | .ok acc => .ok (removal_pass (seenPaths recs) s0.sessions acc) := rfl

theorem build_step_shape (fs : FS) (parsers : Parsers)
    (existing : Str → Option ExistingEntry) (acc : Store × Stats) (r : SessionRec)
    (acc' : Store × Stats) (h : build_step fs parsers existing acc r = .ok acc') :
    (acc'.1 = acc.1 ∧ (acc'.2 = { acc.2 with errors := acc.2.errors + 1 } ∨
        acc'.2 = { acc.2 with skipped := acc.2.skipped + 1 }))
    ∨ (∃ ent fi, existing r.file_path = some ent ∧ fs r.file_path = some fi ∧
        r.file_path ≠ [] ∧ r.tool ∈ parsers ∧
        acc'.1 = ((acc.1.updateRow ent.id (mkRow r fi ent.id)).ftsDelete ent.id).ftsInsert
            (mkFtsRow r fi ent.id) ∧
        acc'.2 = { acc.2 with indexed := acc.2.indexed + 1 })
    ∨ (∃ fi, existing r.file_path = none ∧ fs r.file_path = some fi ∧
        r.file_path ≠ [] ∧ r.tool ∈ parsers ∧
        (acc.1.sessions.any (fun row => row.file_path == r.file_path)) = false ∧
        acc'.1 = ({ acc.1 with
            sessions := acc.1.sessions ++ [mkRow r fi acc.1.next_id],
            next_id := acc.1.next_id + 1 }.ftsDelete acc.1.next_id).ftsInsert
            (mkFtsRow r fi acc.1.next_id) ∧
        acc'.2 = { acc.2 with indexed := acc.2.indexed + 1 }) := by
  simp only [build_step] at h
  split at h
  · cases h; exact Or.inl ⟨rfl, Or.inl rfl⟩
  · split at h
    · cases h; exact Or.inl ⟨rfl, Or.inl rfl⟩
    · rename_i fi hfs
      split at h
      · rename_i ent hent
        split at h
        · cases h; exact Or.inl ⟨rfl, Or.inr rfl⟩
        · split at h
          · cases h
            refine Or.inr (Or.inl ⟨ent, fi, hent, hfs, ?_, ?_, rfl, rfl⟩) <;> assumption
          · cases h; exact Or.inl ⟨rfl, Or.inl rfl⟩
      · rename_i hent
        split at h
        · split at h
          · exact absurd h (by simp)
          · cases h
            rename_i htool hany
            exact Or.inr (Or.inr ⟨fi, hent, hfs, by assumption, htool,
              Bool.not_eq_true _ ▸ eq_false_of_ne_true hany, rfl, rfl⟩)
        · cases h; exact Or.inl ⟨rfl, Or.inl rfl⟩

theorem build_step_skip (fs : FS) (parsers : Parsers)
    (existing : Str → Option ExistingEntry) (s : Store) (st : Stats) (r : SessionRec)
    (fi : FileInfo) (ent : ExistingEntry)
    (h1 : r.file_path ≠ []) (h2 : fs r.file_path = some fi)
    (h3 : existing r.file_path = some ent)
    (h4 : ent.file_size = fi.size) (h5 : ent.mtime = fi.mtime) :
    build_step fs parsers existing (s, st) r =
      .ok (s, { st with skipped := st.skipped + 1 }) := by
  unfold build_step
  rw [if_neg h1]
  simp only [h2, h3]
  rw [if_pos ⟨h4, h5⟩]

theorem build_step_insert (fs : FS) (parsers : Parsers)
    (existing : Str → Option ExistingEntry) (s : Store) (st : Stats) (r : SessionRec)
    (fi : FileInfo)
    (h1 : r.file_path ≠ []) (h2 : fs r.file_path = some fi)
    (h3 : existing r.file_path = none) (h4 : r.tool ∈ parsers)
    (h5 : (s.sessions.any (fun row => row.file_path == r.file_path)) = false) :
    build_step fs parsers existing (s, st) r =
      .ok (({ s with sessions := s.sessions ++ [mkRow r fi s.next_id],
                     next_id := s.next_id + 1 }.ftsDelete s.next_id).ftsInsert
            (mkFtsRow r fi s.next_id),
          { st with indexed := st.indexed + 1 }) := by
  unfold build_step
  rw [if_neg h1]
  simp only [h2, h3]
  rw [if_pos h4, if_neg (by simp [h5])]

theorem build_loop_append (fs : FS) (parsers : Parsers)
    (existing : Str → Option ExistingEntry) :
    ∀ (l1 l2 : List SessionRec) (acc : Store × Stats),
      build_loop fs parsers existing (l1 ++ l2) acc =
        match build_loop fs parsers existing l1 acc with
        | .error e => .error e
        | .ok acc' => build_loop fs parsers existing l2 acc'
  | [], l2, acc => rfl
  | r :: rest, l2, acc => by
    rw [List.cons_append, build_loop, build_loop]
    cases build_step fs parsers existing acc r with
    | error e => rfl
    | ok acc' => exact build_loop_append fs parsers existing rest l2 acc'

/-- The ids deleted by the pruning pass: those of the pre-run rows whose
path was not seen. -/
def removedIds (seen : List Str) (rows : List Row) : List Nat :=
  (rows.filter (fun row => !(decide (row.file_path ∈ seen)))).map Row.id

theorem removal_pass_eq (seen : List Str) :
    ∀ (rows : List Row) (s : Store) (st : Stats),
      removal_pass seen rows (s, st) =
        ({ sessions := s.sessions.filter
              (fun row => !((removedIds seen rows).contains row.id)),
           fts := s.fts.filter (fun fr => !((removedIds seen rows).contains fr.rowid)),
           next_id := s.next_id },
         { st with removed := st.removed +
             rows.countP (fun row => !(decide (row.file_path ∈ seen))) })
  | [], s, st => by
    simp [removal_pass, removedIds]
  | row0 :: rest, s, st => by
    by_cases h : row0.file_path ∈ seen
    · rw [removal_pass, if_pos h, removal_pass_eq seen rest s st]
      simp [removedIds, List.filter_cons, h, List.countP_cons]
    · rw [removal_pass, if_neg h, removal_pass_eq seen rest _ _]
      have hids : removedIds seen (row0 :: rest) = row0.id :: removedIds seen rest := by
        simp [removedIds, List.filter_cons, h]
      refine Prod.ext ?_ ?_
      · simp only [Store.deleteSession, Store.ftsDelete, List.filter_filter, hids]
        refine congrArg₂ (fun a b => Store.mk a b s.next_id) ?_ ?_
        · apply List.filter_congr
          intro x hx
          by_cases hb : x.id = row0.id <;> simp [hb, List.contains_cons]
        · apply List.filter_congr
          intro x hx
          by_cases hb : x.rowid = row0.id <;> simp [hb, List.contains_cons]
      · simp only [hids]
        simp [List.countP_cons, h]
        omega

theorem build_loop_stats (fs : FS) (parsers : Parsers)
    (existing : Str → Option ExistingEntry) :
    ∀ (recs : List SessionRec) (acc acc' : Store × Stats),
      build_loop fs parsers existing recs acc = .ok acc' →
      acc'.2.indexed + acc'.2.skipped + acc'.2.errors
          = acc.2.indexed + acc.2.skipped + acc.2.errors + recs.length
      ∧ acc'.2.scanned = acc.2.scanned ∧ acc'.2.removed = acc.2.removed
  | [], acc, acc', h => by cases h; simp
  | r :: rest, acc, acc', h => by
    rw [build_loop] at h
    cases hstep : build_step fs parsers existing acc r with
    | error e => rw [hstep] at h; cases h
    | ok acc1 =>
      rw [hstep] at h
      obtain ⟨h1, h2, h3⟩ := build_loop_stats fs parsers existing rest acc1 acc' h
      have hfacts : acc1.2.indexed + acc1.2.skipped + acc1.2.errors
            = acc.2.indexed + acc.2.skipped + acc.2.errors + 1
          ∧ acc1.2.scanned = acc.2.scanned ∧ acc1.2.removed = acc.2.removed := by
        rcases build_step_shape fs parsers existing acc r acc1 hstep with
          ⟨-, hst | hst⟩ | ⟨_, _, _, _, _, _, _, hst⟩ | ⟨_, _, _, _, _, _, _, hst⟩ <;>
          · rw [hst]
            refine ⟨?_, ?_, ?_⟩ <;> simp <;> omega
      obtain ⟨g1, g2, g3⟩ := hfacts
      refine ⟨?_, ?_, ?_⟩
      · rw [h1, g1]
        simp only [List.length_cons]
        omega
      · rw [h2, g2]
      · rw [h3, g3]

/-- C10: on every completed `build_index` run, each scanned record is
counted in exactly one of `indexed`, `skipped`, `errors`, so
`indexed + skipped + errors = scanned` with `scanned` the number of
scanned records; `removed` counts, separately, exactly the previously
stored rows whose path was not seen this run. -/
theorem spec_C10_stats_invariant (recs : List SessionRec) (s0 : Store) (fs : FS)
    (parsers : Parsers) (s' : Store) (st : Stats)
    (hok : build_index recs s0 fs parsers = .ok (s', st)) :
    st.indexed + st.skipped + st.errors = st.scanned
    ∧ st.scanned = recs.length
    ∧ st.removed = s0.sessions.countP
        (fun row => !(decide (row.file_path ∈ seenPaths recs))) := by
  rw [build_index_eq] at hok
  cases hloop : build_loop fs parsers (load_existing s0) recs (s0, initStats recs.length) with
  | error e => rw [hloop] at hok; cases hok
  | ok acc =>
    rw [hloop] at hok
    dsimp only at hok
    obtain ⟨s1, st1⟩ := acc
    obtain ⟨h1, h2, h3⟩ := build_loop_stats _ _ _ recs _ _ hloop
    rw [removal_pass_eq] at hok
    simp only [Except.ok.injEq, Prod.mk.injEq] at hok
    obtain ⟨-, hst⟩ := hok
    subst hst
    simp only [initStats] at h1 h2 h3
    simp at h1 h2 h3
    dsimp only
    refine ⟨by omega, by omega, by omega⟩

def wPath : Str := ['q']

def wFI : FileInfo := { size := 3, mtime := 7, searchText := ['h', 'i'] }

/-- A well-behaved scanned record used to exercise the indexer theorems. -/
def wRec : SessionRec :=
  { tool := claudeKey, session_id := ['a'], project_path := ['P', 'r'],
    start_time := some ⟨100, some 0⟩, last_time := some ⟨200, some 0⟩,
    message_count := 2, first_message := ['h'], summary := [], file_path := wPath,
    file_size := 3, model := [] }

def wFS : FS := fun p => if p = wPath then some wFI else none

def wParsers : Parsers := [claudeKey, codexKey]

def wStore : Store :=
  { sessions := [mkRow wRec wFI 1], fts := [mkFtsRow wRec wFI 1], next_id := 2 }

def wStats : Stats :=
  { scanned := 1, indexed := 1, skipped := 0, removed := 0, errors := 0 }

/-- Witness for `spec_C10_stats_invariant`: a concrete one-record run. -/
theorem spec_C10_stats_invariant_witness :
    build_index [wRec] emptyStore wFS wParsers = .ok (wStore, wStats)
    ∧ (wStats.indexed + wStats.skipped + wStats.errors = wStats.scanned
       ∧ wStats.scanned = [wRec].length
       ∧ wStats.removed = emptyStore.sessions.countP
           (fun row => !(decide (row.file_path ∈ seenPaths [wRec])))) :=
  ⟨by rfl,
    spec_C10_stats_invariant [wRec] emptyStore wFS wParsers wStore wStats (by rfl)⟩

/-- C8: the mutations of one `build_index` call form one transaction.
The first conjunct is the rollback guarantee encoded by the `with conn:`
block: when the run aborts with a storage error, the committed (on-disk)
store is exactly the pre-run store — no prefix of the run's writes
survives.  The second conjunct is error propagation: a storage error
raised at any point of the scan loop aborts the whole call with that very
error, regardless of how many records were already processed or remain;
nothing is swallowed and no stats are produced. -/
theorem spec_C8_transactional_reconcile (recs : List SessionRec) (s0 : Store) (fs : FS)
    (parsers : Parsers) :
    (∀ e, build_index recs s0 fs parsers = .error e →
        committed_store recs s0 fs parsers = s0)
    ∧ (∀ pre r rest acc e, recs = pre ++ r :: rest →
        build_loop fs parsers (load_existing s0) pre (s0, initStats recs.length) = .ok acc →
        build_step fs parsers (load_existing s0) acc r = .error e →
        build_index recs s0 fs parsers = .error e) := by
  constructor
  · intro e he
    rw [committed_store, he]
  · intro pre r rest acc e hsplit hpre hstep
    rw [build_index_eq, hsplit, build_loop_append, ← hsplit]
    simp only [hpre, build_loop, hstep]

def wRecDup : SessionRec := { wRec with session_id := ['b'] }

/-- Witness for `spec_C8_transactional_reconcile`: scanning the same new
path twice makes the second INSERT violate the UNIQUE constraint
mid-transaction; the run surfaces the error and commits nothing. -/
theorem spec_C8_transactional_reconcile_witness :
    build_index [wRec, wRecDup] emptyStore wFS wParsers
        = .error (.uniqueViolation wPath)
    ∧ committed_store [wRec, wRecDup] emptyStore wFS wParsers = emptyStore :=
  ⟨by rfl,
    (spec_C8_transactional_reconcile [wRec, wRecDup] emptyStore wFS wParsers).1
      (.uniqueViolation wPath) (by rfl)⟩

/-- The row-linkage invariant: the set of session row ids equals the set
of fts rowids. -/
def linked (s : Store) : Prop :=
  ∀ n, (∃ row ∈ s.sessions, row.id = n) ↔ (∃ fr ∈ s.fts, fr.rowid = n)

/-- A fact SQLite's rowid allocation guarantees: every live id of either
table is below the next fresh rowid. -/
def idsBounded (s : Store) : Prop :=
  (∀ row ∈ s.sessions, row.id < s.next_id) ∧ (∀ fr ∈ s.fts, fr.rowid < s.next_id)

theorem load_existing_mem (s0 : Store) (p : Str) (ent : ExistingEntry)
    (hent : load_existing s0 p = some ent) :
    ∃ row ∈ s0.sessions, row.id = ent.id ∧ row.file_path = p
      ∧ row.file_size = ent.file_size ∧ row.mtime = ent.mtime := by
  unfold load_existing at hent
  obtain ⟨row, hfind, hrow⟩ := Option.map_eq_some'.mp hent
  refine ⟨row, List.mem_of_find?_eq_some hfind, ?_, ?_, ?_, ?_⟩
  · rw [← hrow]
  · have := List.find?_some hfind
    simpa using this
  · rw [← hrow]
  · rw [← hrow]

theorem mem_updateRow_ids (s : Store) (id : Nat) (new : Row) (hnew : new.id = id)
    (n : Nat) :
    (∃ row ∈ (s.updateRow id new).sessions, row.id = n) ↔
      ∃ row ∈ s.sessions, row.id = n := by
  simp only [Store.updateRow, List.mem_map]
  constructor
  · rintro ⟨row', ⟨row, hrow, rfl⟩, hn⟩
    refine ⟨row, hrow, ?_⟩
    by_cases hid : row.id = id
    · rw [if_pos hid] at hn; rw [← hn, hnew, hid]
    · rwa [if_neg hid] at hn
  · rintro ⟨row, hrow, hn⟩
    by_cases hid : row.id = id
    · exact ⟨new, ⟨row, hrow, if_pos hid⟩, by rw [hnew, ← hid, hn]⟩
    · exact ⟨row, ⟨row, hrow, if_neg hid⟩, hn⟩

theorem mem_ftsRepl (fts : List FtsRow) (id : Nat) (fr0 : FtsRow) (hfr : fr0.rowid = id)
    (n : Nat) :
    (∃ fr ∈ fts.filter (fun fr => fr.rowid != id) ++ [fr0], fr.rowid = n) ↔
      (((∃ fr ∈ fts, fr.rowid = n) ∧ n ≠ id) ∨ n = id) := by
  constructor
  · rintro ⟨fr, hmem, rfl⟩
    rcases List.mem_append.mp hmem with hmem | hmem
    · obtain ⟨hin, hne⟩ := List.mem_filter.mp hmem
      exact Or.inl ⟨⟨fr, hin, rfl⟩, by simpa using hne⟩
    · simp at hmem
      subst hmem
      exact Or.inr hfr
  · rintro (⟨⟨fr, hin, rfl⟩, hne⟩ | rfl)
    · exact ⟨fr, List.mem_append.mpr (Or.inl (List.mem_filter.mpr
        ⟨hin, by simpa using hne⟩)), rfl⟩
    · exact ⟨fr0, List.mem_append.mpr (Or.inr (by simp)), hfr⟩

theorem build_step_link (fs : FS) (parsers : Parsers) (s0 : Store)
    (acc acc' : Store × Stats) (r : SessionRec)
    (h : build_step fs parsers (load_existing s0) acc r = .ok acc')
    (hlink : linked acc.1) (hbound : idsBounded acc.1)
    (hper : ∀ row ∈ s0.sessions, ∃ row' ∈ acc.1.sessions, row'.id = row.id) :
    (linked acc'.1 ∧ idsBounded acc'.1 ∧
      ∀ row ∈ s0.sessions, ∃ row' ∈ acc'.1.sessions, row'.id = row.id)
    ∧ acc.1.next_id ≤ acc'.1.next_id := by
  rcases build_step_shape fs parsers (load_existing s0) acc r acc' h with
    ⟨hs, -⟩ | ⟨ent, fi, hent, -, -, -, hs, -⟩ | ⟨fi, -, -, -, -, hany, hs, -⟩
  · rw [hs]; exact ⟨⟨hlink, hbound, hper⟩, le_refl _⟩
  · -- UPDATE branch: same id on both sides, fts document deleted and
    -- re-inserted under it.
    obtain ⟨row0, hrow0, hid0, -, -, -⟩ := load_existing_mem s0 _ ent hent
    obtain ⟨row0', hrow0', hid0'⟩ := hper row0 hrow0
    have hentcur : ∃ row ∈ acc.1.sessions, row.id = ent.id := ⟨row0', hrow0', by rw [hid0', hid0]⟩
    have hids : ∀ n, (∃ row ∈ acc'.1.sessions, row.id = n) ↔
        ∃ row ∈ acc.1.sessions, row.id = n := by
      intro n
      rw [hs]
      exact mem_updateRow_ids acc.1 ent.id (mkRow r fi ent.id) rfl n
    have hfts : ∀ n, (∃ fr ∈ acc'.1.fts, fr.rowid = n) ↔
        (((∃ fr ∈ acc.1.fts, fr.rowid = n) ∧ n ≠ ent.id) ∨ n = ent.id) := by
      intro n
      rw [hs]
      exact mem_ftsRepl acc.1.fts ent.id (mkFtsRow r fi ent.id) rfl n
    have hnid : acc'.1.next_id = acc.1.next_id := by rw [hs]; rfl
    refine ⟨⟨?_, ⟨?_, ?_⟩, ?_⟩, by rw [hnid]⟩
    · intro n
      rw [hids, hfts, hlink]
      constructor
      · intro hn
        by_cases hne : n = ent.id
        · exact Or.inr hne
        · exact Or.inl ⟨hn, hne⟩
      · rintro (⟨hn, -⟩ | rfl)
        · exact hn
        · exact (hlink ent.id).mp hentcur
    · intro row hrow
      rw [hnid]
      have : ∃ rw0 ∈ acc.1.sessions, rw0.id = row.id := (hids row.id).mp ⟨row, hrow, rfl⟩
      obtain ⟨rw0, h1, h2⟩ := this
      rw [← h2]
      exact hbound.1 rw0 h1
    · intro fr hfr
      rw [hnid]
      have := (hfts fr.rowid).mp ⟨fr, hfr, rfl⟩
      rcases this with ⟨⟨fr0, h1, h2⟩, -⟩ | heq
      · rw [← h2]; exact hbound.2 fr0 h1
      · rw [heq]
        obtain ⟨rw0, h1, h2⟩ := hentcur
        rw [← h2]
        exact hbound.1 rw0 h1
    · intro row hrow
      obtain ⟨row', h1, h2⟩ := hper row hrow
      exact (hids row.id).mpr ⟨row', h1, h2⟩
  · -- INSERT branch: a fresh id is added to both sides.
    have hdel : acc.1.fts.filter (fun fr => fr.rowid != acc.1.next_id) = acc.1.fts := by
      apply List.filter_eq_self.mpr
      intro fr hfr
      simpa using Nat.ne_of_lt (hbound.2 fr hfr)
    have hsess : acc'.1.sessions = acc.1.sessions ++ [mkRow r fi acc.1.next_id] := by
      rw [hs]; rfl
    have hftseq : acc'.1.fts = acc.1.fts ++ [mkFtsRow r fi acc.1.next_id] := by
      rw [hs]
      show (acc.1.fts.filter (fun fr => fr.rowid != acc.1.next_id)) ++ _ = _
      rw [hdel]
    have hnid : acc'.1.next_id = acc.1.next_id + 1 := by rw [hs]; rfl
    refine ⟨⟨?_, ⟨?_, ?_⟩, ?_⟩, by rw [hnid]; omega⟩
    · intro n
      rw [hsess, hftseq] at *
      constructor
      · rintro ⟨row, hrow, rfl⟩
        rcases List.mem_append.mp hrow with hrow | hrow
        · obtain ⟨fr, h1, h2⟩ := (hlink row.id).mp ⟨row, hrow, rfl⟩
          exact ⟨fr, List.mem_append.mpr (Or.inl h1), h2⟩
        · simp at hrow
          subst hrow
          exact ⟨mkFtsRow r fi acc.1.next_id, List.mem_append.mpr (Or.inr (by simp)), rfl⟩
      · rintro ⟨fr, hfr, rfl⟩
        rcases List.mem_append.mp hfr with hfr | hfr
        · obtain ⟨row, h1, h2⟩ := (hlink fr.rowid).mpr ⟨fr, hfr, rfl⟩
          exact ⟨row, List.mem_append.mpr (Or.inl h1), h2⟩
        · simp at hfr
          subst hfr
          exact ⟨mkRow r fi acc.1.next_id, List.mem_append.mpr (Or.inr (by simp)), rfl⟩
    · intro row hrow
      rw [hsess] at hrow
      rw [hnid]
      rcases List.mem_append.mp hrow with hrow | hrow
      · exact Nat.lt_succ_of_lt (hbound.1 row hrow)
      · simp at hrow
        subst hrow
        exact Nat.lt_succ_self _
    · intro fr hfr
      rw [hftseq] at hfr
      rw [hnid]
      rcases List.mem_append.mp hfr with hfr | hfr
      · exact Nat.lt_succ_of_lt (hbound.2 fr hfr)
      · simp at hfr
        subst hfr
        exact Nat.lt_succ_self _
    · intro row hrow
      obtain ⟨row', h1, h2⟩ := hper row hrow
      rw [hsess]
      exact ⟨row', List.mem_append.mpr (Or.inl h1), h2⟩

theorem build_loop_link (fs : FS) (parsers : Parsers) (s0 : Store) :
    ∀ (recs : List SessionRec) (acc acc' : Store × Stats),
      build_loop fs parsers (load_existing s0) recs acc = .ok acc' →
      linked acc.1 → idsBounded acc.1 →
      (∀ row ∈ s0.sessions, ∃ row' ∈ acc.1.sessions, row'.id = row.id) →
      linked acc'.1 ∧ idsBounded acc'.1 ∧
        ∀ row ∈ s0.sessions, ∃ row' ∈ acc'.1.sessions, row'.id = row.id
  | [], acc, acc', h, hlink, hbound, hper => by cases h; exact ⟨hlink, hbound, hper⟩
  | r :: rest, acc, acc', h, hlink, hbound, hper => by
    rw [build_loop] at h
    cases hstep : build_step fs parsers (load_existing s0) acc r with
    | error e => rw [hstep] at h; cases h
    | ok acc1 =>
      rw [hstep] at h
      obtain ⟨⟨hl1, hb1, hp1⟩, -⟩ :=
        build_step_link fs parsers s0 acc acc1 r hstep hlink hbound hper
      exact build_loop_link fs parsers s0 rest acc1 acc' h hl1 hb1 hp1

/-- C6: if the session-row id set and the fts rowid set coincide before a
`build_index` call, they coincide after the call completes — every upsert
rewrites the search document under the structured row's id (delete then
re-insert) and the pruning pass deletes both sides by the same id.  The
`idsBounded` hypothesis is the rowid-allocation fact SQLite guarantees. -/
theorem spec_C6_row_linkage (recs : List SessionRec) (s0 : Store) (fs : FS)
    (parsers : Parsers) (s' : Store) (st : Stats)
    (hbound : idsBounded s0) (hlink : linked s0)
    (hok : build_index recs s0 fs parsers = .ok (s', st)) : linked s' := by
  rw [build_index_eq] at hok
  cases hloop : build_loop fs parsers (load_existing s0) recs (s0, initStats recs.length) with
  | error e => rw [hloop] at hok; cases hok
  | ok acc =>
    rw [hloop] at hok
    dsimp only at hok
    obtain ⟨s1, st1⟩ := acc
    obtain ⟨hl1, -, -⟩ := build_loop_link fs parsers s0 recs _ _ hloop hlink hbound
      (fun row hrow => ⟨row, hrow, rfl⟩)
    rw [removal_pass_eq] at hok
    simp only [Except.ok.injEq, Prod.mk.injEq] at hok
    obtain ⟨hs, -⟩ := hok
    subst hs
    intro n
    constructor
    · rintro ⟨row, hrow, rfl⟩
      obtain ⟨hrow, hkeep⟩ := List.mem_filter.mp hrow
      obtain ⟨fr, h1, h2⟩ := (hl1 row.id).mp ⟨row, hrow, rfl⟩
      exact ⟨fr, List.mem_filter.mpr ⟨h1, by rw [h2]; exact hkeep⟩, h2⟩
    · rintro ⟨fr, hfr, rfl⟩
      obtain ⟨hfr, hkeep⟩ := List.mem_filter.mp hfr
      obtain ⟨row, h1, h2⟩ := (hl1 fr.rowid).mpr ⟨fr, hfr, rfl⟩
      exact ⟨row, List.mem_filter.mpr ⟨h1, by rw [h2]; exact hkeep⟩, h2⟩

/-- Witness for `spec_C6_row_linkage`: reconciling one record into a store
that already links ids 1-1 keeps the two id sets equal. -/
theorem spec_C6_row_linkage_witness :
    idsBounded emptyStore ∧ linked emptyStore
    ∧ build_index [wRec] emptyStore wFS wParsers = .ok (wStore, wStats)
    ∧ linked wStore :=
  ⟨⟨by simp [emptyStore], by simp [emptyStore]⟩, ⟨by simp [emptyStore, linked], by rfl,
    spec_C6_row_linkage [wRec] emptyStore wFS wParsers wStore wStats
      ⟨by simp [emptyStore], by simp [emptyStore]⟩ (by simp [emptyStore, linked]) (by rfl)⟩⟩

/-- A scanned record the loop can process without counting an error:
non-empty path, stat succeeds, owning parser known. -/
def cleanRec (fs : FS) (parsers : Parsers) (r : SessionRec) : Prop :=
  r.file_path ≠ [] ∧ (fs r.file_path).isSome ∧ r.tool ∈ parsers

/-- The stat result for a path (meaningful when the path exists). -/
def statFI (fs : FS) (p : Str) : FileInfo :=
  (fs p).getD { size := 0, mtime := 0, searchText := [] }

/-- Store facts enforced by SQLite: distinct primary keys, the UNIQUE
path constraint, and rowids below the allocator. -/
structure LoopWF (s : Store) : Prop where
  ids : (s.sessions.map Row.id).Nodup
  paths : (s.sessions.map Row.file_path).Nodup
  bound : ∀ row ∈ s.sessions, row.id < s.next_id

theorem load_existing_inj (s0 : Store) (h0 : (s0.sessions.map Row.id).Nodup)
    {p1 p2 : Str} {e1 e2 : ExistingEntry}
    (h1 : load_existing s0 p1 = some e1) (h2 : load_existing s0 p2 = some e2)
    (hid : e1.id = e2.id) : p1 = p2 := by
  obtain ⟨r1, hm1, hi1, hp1, -, -⟩ := load_existing_mem s0 p1 e1 h1
  obtain ⟨r2, hm2, hi2, hp2, -, -⟩ := load_existing_mem s0 p2 e2 h2
  have : r1 = r2 := List.inj_on_of_nodup_map h0 hm1 hm2 (by rw [hi1, hi2, hid])
  rw [← hp1, ← hp2, this]

theorem load_existing_of_mem (s : Store)
    (hpnd : (s.sessions.map Row.file_path).Nodup) (row : Row) (hrow : row ∈ s.sessions) :
    load_existing s row.file_path =
      some { id := row.id, file_size := row.file_size, mtime := row.mtime } := by
  unfold load_existing
  cases hfind : s.sessions.find? (fun r => r.file_path == row.file_path) with
  | none =>
    exfalso
    have := List.find?_eq_none.mp hfind row hrow
    simp at this
  | some row' =>
    have hmem := List.mem_of_find?_eq_some hfind
    have hpath : row'.file_path = row.file_path := by
      have := List.find?_some hfind
      simpa using this
    have : row' = row :=
      List.inj_on_of_nodup_map hpnd hmem hrow hpath
    subst this
    rfl

theorem build_step_update (fs : FS) (parsers : Parsers)
    (existing : Str → Option ExistingEntry) (s : Store) (st : Stats) (r : SessionRec)
    (fi : FileInfo) (ent : ExistingEntry)
    (h1 : r.file_path ≠ []) (h2 : fs r.file_path = some fi)
    (h3 : existing r.file_path = some ent)
    (h4 : ¬(ent.file_size = fi.size ∧ ent.mtime = fi.mtime)) (h5 : r.tool ∈ parsers) :
    build_step fs parsers existing (s, st) r =
      .ok (((s.updateRow ent.id (mkRow r fi ent.id)).ftsDelete ent.id).ftsInsert
            (mkFtsRow r fi ent.id),
          { st with indexed := st.indexed + 1 }) := by
  unfold build_step
  rw [if_neg h1]
  simp only [h2, h3]
  rw [if_neg h4, if_pos h5]

theorem build_loop_rows_from (fs : FS) (parsers : Parsers)
    (existing : Str → Option ExistingEntry) :
    ∀ (recs : List SessionRec) (acc acc' : Store × Stats),
      build_loop fs parsers existing recs acc = .ok acc' →
      ∀ row ∈ acc'.1.sessions,
        row ∈ acc.1.sessions ∨ row.file_path ∈ recs.map SessionRec.file_path
  | [], acc, acc', h => by cases h; exact fun row hrow => Or.inl hrow
  | r :: rest, acc, acc', h => by
    rw [build_loop] at h
    cases hstep : build_step fs parsers existing acc r with
    | error e => rw [hstep] at h; cases h
    | ok acc1 =>
      rw [hstep] at h
      intro row hrow
      rcases build_loop_rows_from fs parsers existing rest acc1 acc' h row hrow with
        hin | hin
      · rcases build_step_shape fs parsers existing acc r acc1 hstep with
          ⟨hs, -⟩ | ⟨ent, fi, -, -, -, -, hs, -⟩ | ⟨fi, -, -, -, -, -, hs, -⟩
        · rw [hs] at hin; exact Or.inl hin
        · rw [hs] at hin
          simp only [Store.ftsInsert, Store.ftsDelete, Store.updateRow] at hin
          obtain ⟨row0, hrow0, hf⟩ := List.mem_map.mp hin
          by_cases hid : row0.id = ent.id
          · rw [if_pos hid] at hf
            right
            rw [← hf]
            simp [mkRow]
          · rw [if_neg hid] at hf
            exact Or.inl (hf ▸ hrow0)
        · rw [hs] at hin
          simp only [Store.ftsInsert, Store.ftsDelete] at hin
          rcases List.mem_append.mp hin with hin | hin
          · exact Or.inl hin
          · simp at hin
            right
            rw [hin]
            simp [mkRow]
      · exact Or.inr (by simp; right; simpa using hin)

theorem mem_removedIds (seen : List Str) (rows : List Row) (n : Nat) :
    n ∈ removedIds seen rows ↔ ∃ row ∈ rows, row.file_path ∉ seen ∧ row.id = n := by
  simp [removedIds, List.mem_filter]
  constructor
  · rintro ⟨row, ⟨h1, h2⟩, h3⟩
    exact ⟨row, h1, h2, h3⟩
  · rintro ⟨row, h1, h2, h3⟩
    exact ⟨row, ⟨h1, h2⟩, h3⟩

theorem build_loop_clean (fs : FS) (parsers : Parsers) (s0 : Store)
    (h0 : LoopWF s0) :
    ∀ (recs : List SessionRec) (s : Store) (st : Stats),
      (∀ r ∈ recs, cleanRec fs parsers r) →
      (recs.map SessionRec.file_path).Nodup →
      LoopWF s →
      s0.next_id ≤ s.next_id →
      (∀ p ent, load_existing s0 p = some ent →
          ∀ row ∈ s.sessions, row.id = ent.id → row.file_path = p) →
      (∀ r ∈ recs, ∀ ent, load_existing s0 r.file_path = some ent →
          ∃ row ∈ s.sessions, row.id = ent.id ∧ row.file_path = r.file_path ∧
            row.file_size = ent.file_size ∧ row.mtime = ent.mtime) →
      (∀ row ∈ s.sessions, (load_existing s0 row.file_path).isSome = true ∨
          row.file_path ∉ recs.map SessionRec.file_path) →
      ∃ s' st', build_loop fs parsers (load_existing s0) recs (s, st) = .ok (s', st') ∧
        LoopWF s' ∧ s.next_id ≤ s'.next_id ∧
        (∀ row ∈ s.sessions, row.file_path ∉ recs.map SessionRec.file_path →
            row ∈ s'.sessions) ∧
        (∀ r ∈ recs, ∃ row ∈ s'.sessions, row.file_path = r.file_path ∧
            row.file_size = (statFI fs r.file_path).size ∧
            row.mtime = (statFI fs r.file_path).mtime ∧
            (s.next_id ≤ row.id ∨ ∃ row0 ∈ s0.sessions,
                row0.file_path = r.file_path ∧ row.id = row0.id))
  | [], s, st, _, _, hWF, _, _, _, _ =>
    ⟨s, st, rfl, hWF, le_refl _, fun row hrow _ => hrow, by simp⟩
  | r :: rest, s, st, hclean, hnd, hWF, hmono, hI2, hI3, hI6 => by
    obtain ⟨hpne, hstat, htool⟩ := hclean r (List.mem_cons_self r rest)
    obtain ⟨fi, hfi⟩ := Option.isSome_iff_exists.mp hstat
    have hcleanR : ∀ x ∈ rest, cleanRec fs parsers x :=
      fun x hx => hclean x (List.mem_cons_of_mem r hx)
    have hnd' : (r.file_path :: rest.map SessionRec.file_path).Nodup := by
      simpa using hnd
    have hndR : (rest.map SessionRec.file_path).Nodup := (List.nodup_cons.mp hnd').2
    have hrnotin : r.file_path ∉ rest.map SessionRec.file_path :=
      (List.nodup_cons.mp hnd').1
    have hmemcons : ∀ (p : Str), p ∈ rest.map SessionRec.file_path →
        p ∈ (r :: rest).map SessionRec.file_path := by
      intro p hp
      simp only [List.map_cons, List.mem_cons]
      exact Or.inr hp
    have hrhead : r.file_path ∈ (r :: rest).map SessionRec.file_path := by
      simp
    cases hent : load_existing s0 r.file_path with
    | some ent =>
      by_cases hfp : ent.file_size = fi.size ∧ ent.mtime = fi.mtime
      · -- SKIP branch: the store is untouched.
        have hstep := build_step_skip fs parsers (load_existing s0) s st r fi ent
          hpne hfi hent hfp.1 hfp.2
        obtain ⟨s', st', hloop, hWF', hmono', hstab', hfix'⟩ :=
          build_loop_clean fs parsers s0 h0 rest s { st with skipped := st.skipped + 1 }
            hcleanR hndR hWF hmono hI2
            (fun x hx => hI3 x (List.mem_cons_of_mem r hx))
            (fun row hrow => (hI6 row hrow).imp id (fun h hm => h (hmemcons _ hm)))
        refine ⟨s', st', ?_, hWF', hmono', ?_, ?_⟩
        · rw [build_loop, hstep]; exact hloop
        · intro row hrow hnin
          exact hstab' row hrow (fun hm => hnin (hmemcons _ hm))
        · intro x hx
          rcases List.mem_cons.mp hx with rfl | hx
          · obtain ⟨row, hrow, hid, hpath, hsz, hmt⟩ :=
              hI3 x (List.mem_cons_self x rest) ent hent
            refine ⟨row, hstab' row hrow (by rw [hpath]; exact hrnotin), hpath, ?_, ?_, ?_⟩
            · rw [hsz, hfp.1]; simp [statFI, hfi]
            · rw [hmt, hfp.2]; simp [statFI, hfi]
            · right
              obtain ⟨row0, hm0, hid0, hp0, -, -⟩ := load_existing_mem s0 _ ent hent
              exact ⟨row0, hm0, hp0, by rw [hid, hid0]⟩
          · exact hfix' x hx
      · -- UPDATE branch: rewrite the row under the pre-run id.
        have hstep := build_step_update fs parsers (load_existing s0) s st r fi ent
          hpne hfi hent hfp htool
        have hsu_sess : (((s.updateRow ent.id (mkRow r fi ent.id)).ftsDelete
              ent.id).ftsInsert (mkFtsRow r fi ent.id)).sessions =
            s.sessions.map
              (fun row => if row.id = ent.id then mkRow r fi ent.id else row) := rfl
        have hsu_nid : (((s.updateRow ent.id (mkRow r fi ent.id)).ftsDelete
              ent.id).ftsInsert (mkFtsRow r fi ent.id)).next_id = s.next_id := rfl
        set su := ((s.updateRow ent.id (mkRow r fi ent.id)).ftsDelete
            ent.id).ftsInsert (mkFtsRow r fi ent.id) with hsu
        have hmapid : su.sessions.map Row.id = s.sessions.map Row.id := by
          rw [hsu_sess, List.map_map]
          apply List.map_congr_left
          intro row hrow
          by_cases hid : row.id = ent.id <;> simp [hid, mkRow]
        have hmappath : su.sessions.map Row.file_path = s.sessions.map Row.file_path := by
          rw [hsu_sess, List.map_map]
          apply List.map_congr_left
          intro row hrow
          by_cases hid : row.id = ent.id
          · have := hI2 r.file_path ent hent row hrow hid
            simp [hid, mkRow, this]
          · simp [hid]
        have hboundu : ∀ row' ∈ su.sessions, row'.id < su.next_id := by
          intro row' hrow'
          rw [hsu_sess] at hrow'
          obtain ⟨row, hrow, rfl⟩ := List.mem_map.mp hrow'
          rw [hsu_nid]
          by_cases hid : row.id = ent.id
          · simp only [if_pos hid, mkRow]
            rw [← hid]
            exact hWF.bound row hrow
          · simp only [if_neg hid]
            exact hWF.bound row hrow
        have hWFu : LoopWF su :=
          ⟨hmapid ▸ hWF.ids, hmappath ▸ hWF.paths, hboundu⟩
        have hI2u : ∀ p ent', load_existing s0 p = some ent' →
            ∀ row' ∈ su.sessions, row'.id = ent'.id → row'.file_path = p := by
          intro p ent' hent' row' hrow' hid'
          rw [hsu_sess] at hrow'
          obtain ⟨row, hrow, rfl⟩ := List.mem_map.mp hrow'
          by_cases hid : row.id = ent.id
          · rw [if_pos hid] at hid' ⊢
            have hee : ent.id = ent'.id := hid'
            have hp : r.file_path = p := load_existing_inj s0 h0.ids hent hent' hee
            simp [mkRow, hp]
          · rw [if_neg hid] at hid' ⊢
            exact hI2 p ent' hent' row hrow hid'
        have hI3u : ∀ x ∈ rest, ∀ ent', load_existing s0 x.file_path = some ent' →
            ∃ row ∈ su.sessions, row.id = ent'.id ∧ row.file_path = x.file_path ∧
              row.file_size = ent'.file_size ∧ row.mtime = ent'.mtime := by
          intro x hx ent' hent'
          obtain ⟨row, hrow, hid, hpath, hsz, hmt⟩ :=
            hI3 x (List.mem_cons_of_mem r hx) ent' hent'
          have hne : row.id ≠ ent.id := by
            intro he
            have hxr : x.file_path = r.file_path :=
              load_existing_inj s0 h0.ids hent' hent (by rw [← hid, he])
            exact hrnotin (hxr ▸ (List.mem_map.mpr ⟨x, hx, rfl⟩))
          refine ⟨row, ?_, hid, hpath, hsz, hmt⟩
          rw [hsu_sess]
          exact List.mem_map.mpr ⟨row, hrow, by rw [if_neg hne]⟩
        have hI6u : ∀ row' ∈ su.sessions, (load_existing s0 row'.file_path).isSome = true ∨
            row'.file_path ∉ rest.map SessionRec.file_path := by
          intro row' hrow'
          rw [hsu_sess] at hrow'
          obtain ⟨row, hrow, rfl⟩ := List.mem_map.mp hrow'
          by_cases hid : row.id = ent.id
          · rw [if_pos hid]
            left
            show (load_existing s0 (mkRow r fi ent.id).file_path).isSome = true
            simp [mkRow, hent]
          · rw [if_neg hid]
            exact (hI6 row hrow).imp id (fun h hm => h (hmemcons _ hm))
        obtain ⟨s', st', hloop, hWF', hmono', hstab', hfix'⟩ :=
          build_loop_clean fs parsers s0 h0 rest su { st with indexed := st.indexed + 1 }
            hcleanR hndR hWFu (by rw [hsu_nid]; exact hmono) hI2u hI3u hI6u
        refine ⟨s', st', ?_, hWF', ?_, ?_, ?_⟩
        · rw [build_loop, hstep]; exact hloop
        · rw [hsu_nid] at hmono'; exact hmono'
        · intro row hrow hnin
          have hne : row.id ≠ ent.id := by
            intro he
            have hpr := hI2 r.file_path ent hent row hrow he
            rw [hpr] at hnin
            exact hnin hrhead
          have hmem : row ∈ su.sessions := by
            rw [hsu_sess]
            exact List.mem_map.mpr ⟨row, hrow, by rw [if_neg hne]⟩
          exact hstab' row hmem (fun hm => hnin (hmemcons _ hm))
        · intro x hx
          rcases List.mem_cons.mp hx with rfl | hx
          · obtain ⟨rowe, hrowe, hide, hpe, -, -⟩ :=
              hI3 x (List.mem_cons_self x rest) ent hent
            have hmem : mkRow x fi ent.id ∈ su.sessions := by
              rw [hsu_sess]
              exact List.mem_map.mpr ⟨rowe, hrowe, by rw [if_pos hide]⟩
            have hsurv : mkRow x fi ent.id ∈ s'.sessions := by
              apply hstab' _ hmem
              show (mkRow x fi ent.id).file_path ∉ _
              simpa [mkRow] using hrnotin
            refine ⟨mkRow x fi ent.id, hsurv, ?_, ?_, ?_, ?_⟩
            · rfl
            · simp [mkRow, statFI, hfi]
            · simp [mkRow, statFI, hfi]
            · right
              obtain ⟨row0, hm0, hid0, hp0, -, -⟩ := load_existing_mem s0 _ ent hent
              exact ⟨row0, hm0, hp0, by simp [mkRow, hid0]⟩
          · obtain ⟨row, hrow, h1, h2, h3, h4⟩ := hfix' x hx
            refine ⟨row, hrow, h1, h2, h3, ?_⟩
            rcases h4 with h4 | h4
            · left; rw [hsu_nid] at h4; exact h4
            · right; exact h4
    | none =>
      -- INSERT branch: a fresh row and document are appended.
      have hnotin : ∀ row ∈ s.sessions, row.file_path ≠ r.file_path := by
        intro row hrow heq
        rcases hI6 row hrow with hsome | hnin
        · rw [heq, hent] at hsome
          simp at hsome
        · exact hnin (heq ▸ hrhead)
      have hany : (s.sessions.any (fun row => row.file_path == r.file_path)) = false := by
        rw [List.any_eq_false]
        intro row hrow
        simpa using hnotin row hrow
      have hstep := build_step_insert fs parsers (load_existing s0) s st r fi
        hpne hfi hent htool hany
      have hsi_sess : (({ s with
              sessions := s.sessions ++ [mkRow r fi s.next_id]
              next_id := s.next_id + 1 }.ftsDelete s.next_id).ftsInsert
              (mkFtsRow r fi s.next_id)).sessions =
          s.sessions ++ [mkRow r fi s.next_id] := rfl
      have hsi_nid : (({ s with
              sessions := s.sessions ++ [mkRow r fi s.next_id]
              next_id := s.next_id + 1 }.ftsDelete s.next_id).ftsInsert
              (mkFtsRow r fi s.next_id)).next_id = s.next_id + 1 := rfl
      set si := ({ s with
          sessions := s.sessions ++ [mkRow r fi s.next_id]
          next_id := s.next_id + 1 }.ftsDelete s.next_id).ftsInsert
            (mkFtsRow r fi s.next_id) with hsi
      have hWFi : LoopWF si := by
        refine ⟨?_, ?_, ?_⟩
        · rw [hsi_sess, List.map_append]
          rw [List.nodup_append]
          refine ⟨hWF.ids, by simp [mkRow], ?_⟩
          intro n hn
          simp only [List.map_cons, List.map_nil, List.mem_singleton]
          intro hn2
          obtain ⟨row, hrow, rfl⟩ := List.mem_map.mp hn
          have := hWF.bound row hrow
          simp [mkRow] at hn2
          omega
        · rw [hsi_sess, List.map_append]
          rw [List.nodup_append]
          refine ⟨hWF.paths, by simp [mkRow], ?_⟩
          intro p hp
          simp only [List.map_cons, List.map_nil, List.mem_singleton]
          intro hp2
          obtain ⟨row, hrow, rfl⟩ := List.mem_map.mp hp
          simp [mkRow] at hp2
          exact hnotin row hrow hp2
        · intro row hrow
          rw [hsi_sess] at hrow
          rw [hsi_nid]
          rcases List.mem_append.mp hrow with hrow | hrow
          · exact Nat.lt_succ_of_lt (hWF.bound row hrow)
          · simp at hrow
            subst hrow
            simp [mkRow]
      have hI2i : ∀ p ent', load_existing s0 p = some ent' →
          ∀ row' ∈ si.sessions, row'.id = ent'.id → row'.file_path = p := by
        intro p ent' hent' row' hrow' hid'
        rw [hsi_sess] at hrow'
        rcases List.mem_append.mp hrow' with hrow' | hrow'
        · exact hI2 p ent' hent' row' hrow' hid'
        · simp at hrow'
          subst hrow'
          exfalso
          obtain ⟨row0, hm0, hid0, -, -, -⟩ := load_existing_mem s0 p ent' hent'
          have h1 : ent'.id < s0.next_id := hid0 ▸ h0.bound row0 hm0
          have h2 : (mkRow r fi s.next_id).id = s.next_id := rfl
          rw [h2] at hid'
          omega
      have hI3i : ∀ x ∈ rest, ∀ ent', load_existing s0 x.file_path = some ent' →
          ∃ row ∈ si.sessions, row.id = ent'.id ∧ row.file_path = x.file_path ∧
            row.file_size = ent'.file_size ∧ row.mtime = ent'.mtime := by
        intro x hx ent' hent'
        obtain ⟨row, hrow, hrest⟩ := hI3 x (List.mem_cons_of_mem r hx) ent' hent'
        refine ⟨row, ?_, hrest⟩
        rw [hsi_sess]
        exact List.mem_append.mpr (Or.inl hrow)
      have hI6i : ∀ row' ∈ si.sessions, (load_existing s0 row'.file_path).isSome = true ∨
          row'.file_path ∉ rest.map SessionRec.file_path := by
        intro row' hrow'
        rw [hsi_sess] at hrow'
        rcases List.mem_append.mp hrow' with hrow' | hrow'
        · exact (hI6 row' hrow').imp id (fun h hm => h (hmemcons _ hm))
        · simp at hrow'
          subst hrow'
          right
          show (mkRow r fi s.next_id).file_path ∉ _
          simpa [mkRow] using hrnotin
      obtain ⟨s', st', hloop, hWF', hmono', hstab', hfix'⟩ :=
        build_loop_clean fs parsers s0 h0 rest si { st with indexed := st.indexed + 1 }
          hcleanR hndR hWFi (by rw [hsi_nid]; omega) hI2i hI3i hI6i
      refine ⟨s', st', ?_, hWF', ?_, ?_, ?_⟩
      · rw [build_loop, hstep]; exact hloop
      · rw [hsi_nid] at hmono'; omega
      · intro row hrow hnin
        have hmem : row ∈ si.sessions := by
          rw [hsi_sess]
          exact List.mem_append.mpr (Or.inl hrow)
        exact hstab' row hmem (fun hm => hnin (hmemcons _ hm))
      · intro x hx
        rcases List.mem_cons.mp hx with rfl | hx
        · have hmem : mkRow x fi s.next_id ∈ si.sessions := by
            rw [hsi_sess]
            exact List.mem_append.mpr (Or.inr (by simp))
          have hsurv : mkRow x fi s.next_id ∈ s'.sessions := by
            apply hstab' _ hmem
            show (mkRow x fi s.next_id).file_path ∉ _
            simpa [mkRow] using hrnotin
          refine ⟨mkRow x fi s.next_id, hsurv, rfl, ?_, ?_, ?_⟩
          · simp [mkRow, statFI, hfi]
          · simp [mkRow, statFI, hfi]
          · left
            simp [mkRow]
        · obtain ⟨row, hrow, h1, h2, h3, h4⟩ := hfix' x hx
          refine ⟨row, hrow, h1, h2, h3, ?_⟩
          rcases h4 with h4 | h4
          · left; rw [hsi_nid] at h4; omega
          · right; exact h4

theorem seenPaths_eq_of_clean (recs : List SessionRec)
    (h : ∀ r ∈ recs, r.file_path ≠ []) :
    seenPaths recs = recs.map SessionRec.file_path := by
  unfold seenPaths
  rw [List.filter_eq_self.mpr]
  intro r hr
  simpa using h r hr

theorem build_index_clean (recs : List SessionRec) (s0 : Store) (fs : FS)
    (parsers : Parsers) (h0 : LoopWF s0)
    (hclean : ∀ r ∈ recs, cleanRec fs parsers r)
    (hnd : (recs.map SessionRec.file_path).Nodup) :
    ∃ s1 st1, build_index recs s0 fs parsers = .ok (s1, st1) ∧
      LoopWF s1 ∧
      (∀ rec ∈ recs, ∃ row ∈ s1.sessions, row.file_path = rec.file_path ∧
          row.file_size = (statFI fs rec.file_path).size ∧
          row.mtime = (statFI fs rec.file_path).mtime) ∧
      (∀ row ∈ s1.sessions, row.file_path ∈ recs.map SessionRec.file_path) := by
  have hI2init : ∀ p ent, load_existing s0 p = some ent →
      ∀ row ∈ s0.sessions, row.id = ent.id → row.file_path = p := by
    intro p ent hent row hrow hid
    obtain ⟨row0, hm0, hid0, hp0, -, -⟩ := load_existing_mem s0 p ent hent
    have : row = row0 := List.inj_on_of_nodup_map h0.ids hrow hm0 (by rw [hid, hid0])
    rw [this, hp0]
  have hI3init : ∀ r ∈ recs, ∀ ent, load_existing s0 r.file_path = some ent →
      ∃ row ∈ s0.sessions, row.id = ent.id ∧ row.file_path = r.file_path ∧
        row.file_size = ent.file_size ∧ row.mtime = ent.mtime := by
    intro r _ ent hent
    obtain ⟨row0, hm0, hid0, hp0, hs0', hm0'⟩ := load_existing_mem s0 _ ent hent
    exact ⟨row0, hm0, hid0, hp0, hs0', hm0'⟩
  have hI6init : ∀ row ∈ s0.sessions, (load_existing s0 row.file_path).isSome = true ∨
      row.file_path ∉ recs.map SessionRec.file_path := by
    intro row hrow
    left
    rw [load_existing_of_mem s0 h0.paths row hrow]
    rfl
  obtain ⟨s', st', hloop, hWF', hmono', hstab', hfix'⟩ :=
    build_loop_clean fs parsers s0 h0 recs s0 (initStats recs.length)
      hclean hnd h0 (le_refl _) hI2init hI3init hI6init
  rw [build_index_eq, hloop]
  dsimp only
  rw [removal_pass_eq]
  refine ⟨_, _, rfl, ?_, ?_, ?_⟩
  · refine ⟨?_, ?_, ?_⟩
    · exact ((List.filter_sublist _).map Row.id).nodup hWF'.ids
    · exact ((List.filter_sublist _).map Row.file_path).nodup hWF'.paths
    · intro row hrow
      exact hWF'.bound row (List.mem_filter.mp hrow).1
  · intro rec hrec
    obtain ⟨row, hrow, hpath, hsz, hmt, hdis⟩ := hfix' rec hrec
    refine ⟨row, ?_, hpath, hsz, hmt⟩
    apply List.mem_filter.mpr
    refine ⟨hrow, ?_⟩
    have hnotrem : row.id ∉ removedIds (seenPaths recs) s0.sessions := by
      intro hmem
      obtain ⟨row0, hm0, hns0, hid0⟩ := (mem_removedIds _ _ _).mp hmem
      rcases hdis with hge | ⟨rowe, hme, hpe, hide⟩
      · have := h0.bound row0 hm0
        omega
      · have : row0 = rowe :=
          List.inj_on_of_nodup_map h0.ids hm0 hme (by rw [hid0, ← hide])
        apply hns0
        rw [this, hpe, ← hpath]
        rw [seenPaths_eq_of_clean recs (fun x hx => (hclean x hx).1), hpath]
        exact List.mem_map.mpr ⟨rec, hrec, rfl⟩
    simpa using hnotrem
  · intro row hrow
    obtain ⟨hrow, hkeep⟩ := List.mem_filter.mp hrow
    rcases build_loop_rows_from fs parsers (load_existing s0) recs _ _ hloop row hrow with
      hin | hin
    · by_contra hnot
      have : row.id ∈ removedIds (seenPaths recs) s0.sessions := by
        apply (mem_removedIds _ _ _).mpr
        refine ⟨row, hin, ?_, rfl⟩
        intro hseen
        apply hnot
        rw [seenPaths_eq_of_clean recs (fun x hx => (hclean x hx).1)] at hseen
        exact hseen
      simp [this] at hkeep
    · exact hin

theorem build_loop_all_skip (fs : FS) (parsers : Parsers)
    (existing : Str → Option ExistingEntry) :
    ∀ (recs : List SessionRec) (s : Store) (st : Stats),
      (∀ r ∈ recs, r.file_path ≠ [] ∧ ∃ fi, fs r.file_path = some fi ∧
          ∃ ent, existing r.file_path = some ent ∧
            ent.file_size = fi.size ∧ ent.mtime = fi.mtime) →
      build_loop fs parsers existing recs (s, st) =
        .ok (s, { st with skipped := st.skipped + recs.length })
  | [], s, st, _ => rfl
  | r :: rest, s, st, h => by
    obtain ⟨hpne, fi, hfi, ent, hent, hsz, hmt⟩ := h r (List.mem_cons_self r rest)
    rw [build_loop, build_step_skip fs parsers existing s st r fi ent hpne hfi hent hsz hmt]
    dsimp only
    rw [build_loop_all_skip fs parsers existing rest s _
      (fun x hx => h x (List.mem_cons_of_mem r hx))]
    obtain ⟨a, b, c, d, e⟩ := st
    refine congrArg Except.ok (Prod.ext rfl ?_)
    show Stats.mk _ _ _ _ _ = Stats.mk _ _ _ _ _
    simp only [List.length_cons, Stats.mk.injEq]
    refine ⟨trivial, trivial, by omega, trivial, trivial⟩

/-- C4: reconciliation is idempotent.  Running `build_index` on
well-behaved scanned records (non-empty distinct paths, stat succeeding,
owning parsers known — the shape records produced by the parsers always
have), and then running it again on the same records with no filesystem
change, makes the second run report `indexed = 0`,
`skipped = scanned = |recs|`, `removed = 0`, `errors = 0`, and return the
store unchanged: no store writes happen for skipped records. -/
theorem spec_C4_idempotent_reindex (recs : List SessionRec) (s0 : Store) (fs : FS)
    (parsers : Parsers) (h0 : LoopWF s0)
    (hclean : ∀ r ∈ recs, cleanRec fs parsers r)
    (hnd : (recs.map SessionRec.file_path).Nodup) :
    ∃ s1 st1, build_index recs s0 fs parsers = .ok (s1, st1) ∧
      build_index recs s1 fs parsers =
        .ok (s1, { scanned := recs.length, indexed := 0, skipped := recs.length,
                   removed := 0, errors := 0 }) := by
  obtain ⟨s1, st1, hrun1, hWF1, hfp1, hpaths1⟩ :=
    build_index_clean recs s0 fs parsers h0 hclean hnd
  refine ⟨s1, st1, hrun1, ?_⟩
  rw [build_index_eq]
  have hskip : build_loop fs parsers (load_existing s1) recs (s1, initStats recs.length)
      = .ok (s1, { initStats recs.length with skipped := 0 + recs.length }) := by
    apply build_loop_all_skip
    intro r hr
    obtain ⟨hpne, hstat, -⟩ := hclean r hr
    obtain ⟨fi, hfi⟩ := Option.isSome_iff_exists.mp hstat
    obtain ⟨row, hrow, hpath, hsz, hmt⟩ := hfp1 r hr
    refine ⟨hpne, fi, hfi, ⟨row.id, row.file_size, row.mtime⟩, ?_, ?_, ?_⟩
    · rw [← hpath]
      exact load_existing_of_mem s1 hWF1.paths row hrow
    · rw [hsz]; simp [statFI, hfi]
    · rw [hmt]; simp [statFI, hfi]
  rw [hskip]
  dsimp only
  rw [removal_pass_eq]
  have hrem : removedIds (seenPaths recs) s1.sessions = [] := by
    rw [removedIds, List.filter_eq_nil.mpr, List.map_nil]
    intro row hrow
    have := hpaths1 row hrow
    rw [← seenPaths_eq_of_clean recs (fun x hx => (hclean x hx).1)] at this
    simp [this]
  have hcount : s1.sessions.countP
      (fun row => !(decide (row.file_path ∈ seenPaths recs))) = 0 := by
    rw [List.countP_eq_zero]
    intro row hrow
    have := hpaths1 row hrow
    rw [← seenPaths_eq_of_clean recs (fun x hx => (hclean x hx).1)] at this
    simp [this]
  rw [hrem, hcount]
  have hsess : s1.sessions.filter (fun row => !(([] : List Nat).contains row.id))
      = s1.sessions := List.filter_eq_self.mpr (fun _ _ => rfl)
  have hfts : s1.fts.filter (fun fr => !(([] : List Nat).contains fr.rowid))
      = s1.fts := List.filter_eq_self.mpr (fun _ _ => rfl)
  rw [hsess, hfts]
  refine congrArg Except.ok (Prod.ext rfl ?_)
  simp [initStats]

/-- Witness for `spec_C4_idempotent_reindex` at a one-record scan. -/
theorem spec_C4_idempotent_reindex_witness :
    (LoopWF emptyStore ∧ (∀ r ∈ [wRec], cleanRec wFS wParsers r)
      ∧ (([wRec].map SessionRec.file_path).Nodup))
    ∧ (∃ s1 st1, build_index [wRec] emptyStore wFS wParsers = .ok (s1, st1) ∧
        build_index [wRec] s1 wFS wParsers =
          .ok (s1, { scanned := 1, indexed := 0, skipped := 1,
                     removed := 0, errors := 0 })) :=
  ⟨⟨⟨by simp [emptyStore], by simp [emptyStore], by simp [emptyStore]⟩,
      by intro r hr; simp at hr; subst hr; exact ⟨by decide, by rfl, by decide⟩,
      by simp⟩,
    spec_C4_idempotent_reindex [wRec] emptyStore wFS wParsers
      ⟨by simp [emptyStore], by simp [emptyStore], by simp [emptyStore]⟩
      (by intro r hr; simp at hr; subst hr; exact ⟨by decide, by rfl, by decide⟩)
      (by simp)⟩

theorem queryStore_mem (s : Store) (f : SessionFilter) (tool : Str) (lim : Option Nat)
    (row : Row) (h : row ∈ queryStore (some s) f tool lim) : row ∈ s.sessions := by
  unfold queryStore at h
  have hsorted : row ∈ sortRowsDesc (s.sessions.filter (sql_accept f tool s.fts)) := by
    cases lim with
    | none => exact h
    | some n => exact List.take_subset n _ h
  have hfil : row ∈ s.sessions.filter (sql_accept f tool s.fts) :=
    (List.mem_insertionSort rowGE).mp hsorted
  exact (List.mem_filter.mp hfil).1

/-- C5: after a `build_index` run over records with well-formed paths,
`removed` counts exactly the previously stored rows whose path was not
scanned; every such row is deleted from both the `sessions` table and the
`sessions_fts` structure (no surviving row or fts document carries its id,
and no surviving row its path); and no subsequent query, under any filter,
tool scope and limit, returns a record with an unscanned path.  With one
previously-indexed file removed from the scan, the count is exactly 1. -/
theorem spec_C5_removed_pruned (recs : List SessionRec) (s0 : Store) (fs : FS)
    (parsers : Parsers) (s' : Store) (st : Stats)
    (h0 : LoopWF s0)
    (hpaths : ∀ r ∈ recs, r.file_path ≠ [])
    (hok : build_index recs s0 fs parsers = .ok (s', st)) :
    st.removed = s0.sessions.countP
        (fun row => !(decide (row.file_path ∈ recs.map SessionRec.file_path)))
    ∧ (∀ row ∈ s'.sessions, row.file_path ∈ recs.map SessionRec.file_path)
    ∧ (∀ r0 ∈ s0.sessions, r0.file_path ∉ recs.map SessionRec.file_path →
        (∀ row ∈ s'.sessions, row.id ≠ r0.id ∧ row.file_path ≠ r0.file_path)
        ∧ (∀ fr ∈ s'.fts, fr.rowid ≠ r0.id))
    ∧ (∀ f tool lim row, row ∈ queryStore (some s') f tool lim →
        row.file_path ∈ recs.map SessionRec.file_path) := by
  have hseen : seenPaths recs = recs.map SessionRec.file_path :=
    seenPaths_eq_of_clean recs hpaths
  rw [build_index_eq] at hok
  cases hloop : build_loop fs parsers (load_existing s0) recs (s0, initStats recs.length) with
  | error e => rw [hloop] at hok; cases hok
  | ok acc =>
    rw [hloop] at hok
    dsimp only at hok
    obtain ⟨s1, st1⟩ := acc
    obtain ⟨-, -, h3⟩ := build_loop_stats _ _ _ recs _ _ hloop
    rw [removal_pass_eq] at hok
    simp only [Except.ok.injEq, Prod.mk.injEq] at hok
    obtain ⟨hs, hst⟩ := hok
    have hall : ∀ row ∈ s'.sessions, row.file_path ∈ recs.map SessionRec.file_path := by
      intro row hrow
      rw [← hs] at hrow
      obtain ⟨hrow1, hkeep⟩ := List.mem_filter.mp hrow
      rcases build_loop_rows_from fs parsers (load_existing s0) recs _ _ hloop row hrow1
        with hin | hin
      · by_contra hnot
        have hmem : row.id ∈ removedIds (seenPaths recs) s0.sessions := by
          apply (mem_removedIds _ _ _).mpr
          exact ⟨row, hin, by rw [hseen]; exact hnot, rfl⟩
        simp [hmem] at hkeep
      · exact hin
    refine ⟨?_, hall, ?_, ?_⟩
    · rw [← hst]
      have h3' : st1.removed = 0 := by simpa [initStats] using h3
      show st1.removed + _ = _
      rw [h3', hseen, Nat.zero_add]
    · intro r0 hr0 hnin
      have hmem : r0.id ∈ removedIds (seenPaths recs) s0.sessions := by
        apply (mem_removedIds _ _ _).mpr
        exact ⟨r0, hr0, by rw [hseen]; exact hnin, rfl⟩
      constructor
      · intro row hrow
        constructor
        · intro heq
          rw [← hs] at hrow
          obtain ⟨-, hkeep⟩ := List.mem_filter.mp hrow
          rw [heq] at hkeep
          simp [hmem] at hkeep
        · intro heq
          exact hnin (heq ▸ hall row hrow)
      · intro fr hfr heq
        rw [← hs] at hfr
        obtain ⟨-, hkeep⟩ := List.mem_filter.mp hfr
        rw [heq] at hkeep
        simp [hmem] at hkeep
    · intro f tool lim row hrow
      exact hall row (queryStore_mem s' f tool lim row hrow)

/-- Witness for `spec_C5_removed_pruned`: reconciling an empty scan against
a store holding one session removes exactly that session everywhere. -/
theorem spec_C5_removed_pruned_witness :
    (build_index [] wStore wFS wParsers =
        .ok ({ sessions := [], fts := [], next_id := 2 },
             { scanned := 0, indexed := 0, skipped := 0, removed := 1, errors := 0 }))
    ∧ ({ scanned := 0, indexed := 0, skipped := 0, removed := 1,
         errors := 0 : Stats }.removed
        = wStore.sessions.countP
            (fun row => !(decide (row.file_path ∈ ([] : List SessionRec).map
                SessionRec.file_path)))
       ∧ (∀ row ∈ ({ sessions := [], fts := [], next_id := 2 : Store }).sessions,
            row.file_path ∈ ([] : List SessionRec).map SessionRec.file_path)
       ∧ (∀ r0 ∈ wStore.sessions,
            r0.file_path ∉ ([] : List SessionRec).map SessionRec.file_path →
            (∀ row ∈ ({ sessions := [], fts := [], next_id := 2 : Store }).sessions,
                row.id ≠ r0.id ∧ row.file_path ≠ r0.file_path)
            ∧ (∀ fr ∈ ({ sessions := [], fts := [], next_id := 2 : Store }).fts,
                fr.rowid ≠ r0.id))
       ∧ (∀ f tool lim row,
            row ∈ queryStore (some { sessions := [], fts := [], next_id := 2 }) f tool lim →
            row.file_path ∈ ([] : List SessionRec).map SessionRec.file_path)) :=
  ⟨by rfl,
    spec_C5_removed_pruned [] wStore wFS wParsers
      { sessions := [], fts := [], next_id := 2 }
      { scanned := 0, indexed := 0, skipped := 0, removed := 1, errors := 0 }
      ⟨by decide, by decide, by decide⟩ (by simp) (by rfl)⟩

/-- A LIKE pattern fragment with no wildcard metacharacters. -/
def noWild (q : Str) : Prop := '%' ∉ q ∧ '_' ∉ q

/-- Text made of ASCII code points only. -/
def asciiOnly (s : Str) : Prop := ∀ c ∈ s, c.toNat < 128

instance (q : Str) : Decidable (noWild q) := by unfold noWild; infer_instance

instance (s : Str) : Decidable (asciiOnly s) := by unfold asciiOnly; infer_instance

theorem pyCharLower_ascii {c : Char} (h : c.toNat < 128) : pyCharLower c = c.toLower := by
  unfold pyCharLower
  rw [if_neg]
  rintro ⟨h1, -, -⟩
  omega

theorem pyLower_ascii {s : Str} (h : asciiOnly s) : pyLower s = s.map Char.toLower := by
  unfold pyLower
  apply List.map_congr_left
  intro c hc
  exact pyCharLower_ascii (h c hc)

theorem likeMatch_pct (ps : Str) :
    ∀ (s : Str), likeMatch ('%' :: ps) s = true ↔
      ∃ s1 s2, s = s1 ++ s2 ∧ likeMatch ps s2 = true
  | [] => by
    simp only [likeMatch, eq_self_iff_true, if_true, Bool.or_false]
    constructor
    · intro h
      exact ⟨[], [], rfl, h⟩
    · rintro ⟨s1, s2, hsplit, h⟩
      obtain ⟨h1, h2⟩ := List.append_eq_nil.mp hsplit.symm
      subst h2
      exact h
  | c :: s' => by
    have ih := likeMatch_pct ps s'
    simp only [likeMatch, eq_self_iff_true, if_true]
    rw [Bool.or_eq_true]
    constructor
    · rintro (h | h)
      · exact ⟨[], c :: s', rfl, h⟩
      · obtain ⟨s1, s2, hsplit, hm⟩ := ih.mp h
        exact ⟨c :: s1, s2, by rw [hsplit]; rfl, hm⟩
    · rintro ⟨s1, s2, hsplit, hm⟩
      cases s1 with
      | nil =>
        left
        rw [List.nil_append] at hsplit
        rw [← hsplit] at hm
        exact hm
      | cons a s1' =>
        right
        rw [List.cons_append, List.cons.injEq] at hsplit
        exact ih.mpr ⟨s1', s2, hsplit.2, hm⟩

theorem likeMatch_all (s : Str) : likeMatch ['%'] s = true := by
  rw [likeMatch_pct]
  exact ⟨s, [], by simp, by simp [likeMatch]⟩

theorem likeMatch_nowild_append (ps : Str) :
    ∀ (q : Str), noWild q → ∀ (s : Str),
      (likeMatch (q ++ ps) s = true ↔
        ∃ s1 s2, s = s1 ++ s2 ∧ s1.map Char.toLower = q.map Char.toLower ∧
          likeMatch ps s2 = true)
  | [], _, s => by
    simp only [List.nil_append, List.map_nil]
    constructor
    · intro h
      exact ⟨[], s, rfl, rfl, h⟩
    · rintro ⟨s1, s2, hsplit, hmap, hm⟩
      have : s1 = [] := by
        cases s1 with
        | nil => rfl
        | cons a t =>
          exfalso
          simp only [List.map_nil, List.map_cons] at hmap
          exact (List.cons_ne_nil _ _) hmap
      subst this
      rw [List.nil_append] at hsplit
      rw [hsplit]
      exact hm
  | p :: q', hnw, s => by
    have hp1 : p ≠ '%' := fun h => hnw.1 (h ▸ List.mem_cons_self p q')
    have hp2 : p ≠ '_' := fun h => hnw.2 (h ▸ List.mem_cons_self p q')
    have hnw' : noWild q' :=
      ⟨fun h => hnw.1 (List.mem_cons_of_mem p h), fun h => hnw.2 (List.mem_cons_of_mem p h)⟩
    cases s with
    | nil =>
      simp only [List.cons_append, likeMatch, if_neg hp1]
      constructor
      · intro h
        exact absurd h (by simp)
      · rintro ⟨s1, s2, hsplit, hmap, -⟩
        exfalso
        cases s1 with
        | nil =>
          simp only [List.map_nil, List.map_cons] at hmap
          exact (List.cons_ne_nil _ _) hmap.symm
        | cons a t => simp at hsplit
    | cons c s' =>
      have ih := likeMatch_nowild_append ps q' hnw' s'
      simp only [List.cons_append, likeMatch, if_neg hp1, if_neg hp2]
      rw [Bool.and_eq_true, ih]
      constructor
      · rintro ⟨hpc, s1, s2, hsplit, hmap, hm⟩
        refine ⟨c :: s1, s2, by rw [hsplit]; rfl, ?_, hm⟩
        simp only [List.map_cons, List.cons.injEq]
        exact ⟨(beq_iff_eq.mp hpc).symm, hmap⟩
      · rintro ⟨s1, s2, hsplit, hmap, hm⟩
        cases s1 with
        | nil =>
          exfalso
          simp only [List.map_nil, List.map_cons] at hmap
          exact (List.cons_ne_nil _ _) hmap.symm
        | cons a s1' =>
          rw [List.cons_append, List.cons.injEq] at hsplit
          obtain ⟨rfl, hsplit⟩ := hsplit
          simp only [List.map_cons, List.cons.injEq] at hmap
          refine ⟨beq_iff_eq.mpr hmap.1.symm, s1', s2, hsplit, hmap.2, hm⟩

theorem likeMatch_sub_iff (q s : Str) (hq : noWild q) :
    likeMatch ('%' :: (q ++ ['%'])) s = true ↔
      (q.map Char.toLower) <:+: (s.map Char.toLower) := by
  rw [likeMatch_pct]
  constructor
  · rintro ⟨s1, s2, rfl, h⟩
    rw [likeMatch_nowild_append ['%'] q hq s2] at h
    obtain ⟨u, v, rfl, hu, -⟩ := h
    refine ⟨s1.map Char.toLower, v.map Char.toLower, ?_⟩
    rw [← hu]
    simp [List.map_append]
  · rintro ⟨a, b, hab⟩
    have hab' : List.map Char.toLower s = a ++ (q.map Char.toLower ++ b) := by
      rw [← hab, List.append_assoc]
    obtain ⟨s1, s23, rfl, hs1, hs23⟩ := List.map_eq_append_split.mp hab'
    obtain ⟨u, v, rfl, hu, hv⟩ := List.map_eq_append_split.mp hs23
    refine ⟨s1, u ++ v, rfl, ?_⟩
    rw [likeMatch_nowild_append ['%'] q hq]
    exact ⟨u, v, rfl, hu, likeMatch_all v⟩

/-- The session rows a run over previously-unseen files inserts, in scan
order, with consecutive fresh ids from `n`. -/
def freshRows (fs : FS) : List SessionRec → Nat → List Row
  | [], _ => []
  | r :: rest, n => mkRow r (statFI fs r.file_path) n :: freshRows fs rest (n + 1)

/-- The fts rows inserted next to `freshRows`. -/
def freshFts (fs : FS) : List SessionRec → Nat → List FtsRow
  | [], _ => []
  | r :: rest, n => mkFtsRow r (statFI fs r.file_path) n :: freshFts fs rest (n + 1)

theorem mem_freshRows (fs : FS) :
    ∀ (recs : List SessionRec) (n : Nat) (row : Row),
      row ∈ freshRows fs recs n →
      ∃ r ∈ recs, ∃ m, row = mkRow r (statFI fs r.file_path) m
  | [], n, row, h => by cases h
  | r :: rest, n, row, h => by
    rcases List.mem_cons.mp h with rfl | h
    · exact ⟨r, List.mem_cons_self r rest, n, rfl⟩
    · obtain ⟨x, hx, m, hm⟩ := mem_freshRows fs rest (n + 1) row h
      exact ⟨x, List.mem_cons_of_mem r hx, m, hm⟩

theorem freshRows_exists (fs : FS) :
    ∀ (recs : List SessionRec) (n : Nat) (r : SessionRec), r ∈ recs →
      ∃ m, mkRow r (statFI fs r.file_path) m ∈ freshRows fs recs n
  | [], n, r, h => by cases h
  | x :: rest, n, r, h => by
    rcases List.mem_cons.mp h with rfl | h
    · exact ⟨n, List.mem_cons_self _ _⟩
    · obtain ⟨m, hm⟩ := freshRows_exists fs rest (n + 1) r h
      exact ⟨m, List.mem_cons_of_mem _ hm⟩

theorem build_loop_fresh (fs : FS) (parsers : Parsers)
    (existing : Str → Option ExistingEntry) :
    ∀ (recs : List SessionRec) (s : Store) (st : Stats),
      (∀ r ∈ recs, cleanRec fs parsers r) →
      (recs.map SessionRec.file_path).Nodup →
      (∀ r ∈ recs, existing r.file_path = none) →
      (∀ r ∈ recs, ∀ row ∈ s.sessions, row.file_path ≠ r.file_path) →
      (∀ fr ∈ s.fts, fr.rowid < s.next_id) →
      build_loop fs parsers existing recs (s, st) =
        .ok ({ sessions := s.sessions ++ freshRows fs recs s.next_id,
               fts := s.fts ++ freshFts fs recs s.next_id,
               next_id := s.next_id + recs.length },
             { st with indexed := st.indexed + recs.length })
  | [], s, st, _, _, _, _, _ => by
    simp only [build_loop, freshRows, freshFts, List.append_nil, List.length_nil]
    rfl
  | r :: rest, s, st, hclean, hnd, hnone, hnew, hffts => by
    obtain ⟨hpne, hstat, htool⟩ := hclean r (List.mem_cons_self r rest)
    obtain ⟨fi, hfi⟩ := Option.isSome_iff_exists.mp hstat
    have hnd' : (r.file_path :: rest.map SessionRec.file_path).Nodup := by simpa using hnd
    have hrnotin : r.file_path ∉ rest.map SessionRec.file_path :=
      (List.nodup_cons.mp hnd').1
    have hany : (s.sessions.any (fun row => row.file_path == r.file_path)) = false := by
      rw [List.any_eq_false]
      intro row hrow
      simpa using hnew r (List.mem_cons_self r rest) row hrow
    have hdel : s.fts.filter (fun fr => fr.rowid != s.next_id) = s.fts := by
      apply List.filter_eq_self.mpr
      intro fr hfr
      simpa using Nat.ne_of_lt (hffts fr hfr)
    have hsi : (({ s with
          sessions := s.sessions ++ [mkRow r fi s.next_id]
          next_id := s.next_id + 1 }.ftsDelete s.next_id).ftsInsert
          (mkFtsRow r fi s.next_id)) =
        { sessions := s.sessions ++ [mkRow r fi s.next_id],
          fts := s.fts ++ [mkFtsRow r fi s.next_id],
          next_id := s.next_id + 1 } := by
      simp only [Store.ftsDelete, Store.ftsInsert]
      rw [Store.mk.injEq]
      exact ⟨rfl, by rw [hdel], rfl⟩
    rw [build_loop, build_step_insert fs parsers existing s st r fi hpne hfi
      (hnone r (List.mem_cons_self r rest)) htool hany]
    dsimp only
    rw [hsi]
    have hcleanR : ∀ x ∈ rest, cleanRec fs parsers x :=
      fun x hx => hclean x (List.mem_cons_of_mem r hx)
    have hndR : (rest.map SessionRec.file_path).Nodup := (List.nodup_cons.mp hnd').2
    have hnoneR : ∀ x ∈ rest, existing x.file_path = none :=
      fun x hx => hnone x (List.mem_cons_of_mem r hx)
    have hnewR : ∀ x ∈ rest, ∀ row ∈ s.sessions ++ [mkRow r fi s.next_id],
        row.file_path ≠ x.file_path := by
      intro x hx row hrow
      rcases List.mem_append.mp hrow with hrow | hrow
      · exact hnew x (List.mem_cons_of_mem r hx) row hrow
      · simp only [List.mem_singleton] at hrow
        subst hrow
        show r.file_path ≠ x.file_path
        intro heq
        exact hrnotin (heq ▸ List.mem_map.mpr ⟨x, hx, rfl⟩)
    have hfftsR : ∀ fr ∈ s.fts ++ [mkFtsRow r fi s.next_id], fr.rowid < s.next_id + 1 := by
      intro fr hfr
      rcases List.mem_append.mp hfr with hfr | hfr
      · exact Nat.lt_succ_of_lt (hffts fr hfr)
      · simp only [List.mem_singleton] at hfr
        subst hfr
        exact Nat.lt_succ_self _
    rw [build_loop_fresh fs parsers existing rest _ _ hcleanR hndR hnoneR hnewR hfftsR]
    have hstat' : statFI fs r.file_path = fi := by simp [statFI, hfi]
    refine congrArg Except.ok (Prod.ext ?_ ?_)
    · show Store.mk _ _ _ = Store.mk _ _ _
      simp only [freshRows, freshFts, hstat', List.length_cons]
      rw [Store.mk.injEq]
      refine ⟨?_, ?_, ?_⟩
      · rw [List.append_assoc]; rfl
      · rw [List.append_assoc]; rfl
      · omega
    · obtain ⟨a, b, c, d, e⟩ := st
      show Stats.mk _ _ _ _ _ = Stats.mk _ _ _ _ _
      simp only [List.length_cons, Stats.mk.injEq]
      refine ⟨trivial, by omega, trivial, trivial, trivial⟩

theorem build_index_fresh (recs : List SessionRec) (fs : FS) (parsers : Parsers)
    (hclean : ∀ r ∈ recs, cleanRec fs parsers r)
    (hnd : (recs.map SessionRec.file_path).Nodup) :
    build_index recs emptyStore fs parsers =
      .ok ({ sessions := freshRows fs recs 1, fts := freshFts fs recs 1,
             next_id := 1 + recs.length },
           { scanned := recs.length, indexed := recs.length, skipped := 0,
             removed := 0, errors := 0 }) := by
  rw [build_index_eq]
  rw [build_loop_fresh fs parsers (load_existing emptyStore) recs emptyStore
    (initStats recs.length) hclean hnd (fun r _ => rfl)
    (fun r _ row hrow => absurd hrow (List.not_mem_nil row))
    (fun fr hfr => absurd hfr (List.not_mem_nil fr))]
  dsimp only [removal_pass]
  refine congrArg Except.ok (Prod.ext ?_ ?_)
  · rw [Store.mk.injEq]
    exact ⟨List.nil_append _, List.nil_append _, rfl⟩
  · show Stats.mk _ _ _ _ _ = Stats.mk _ _ _ _ _
    simp [initStats]

theorem bool_eq_of_iff {a b : Bool} (h : a = true ↔ b = true) : a = b := by
  cases a <;> cases b <;> simp_all

theorem matches_date_range_sql (stv since untl : Option PyDT) :
    matches_date_range stv since untl =
      ((match since with
        | none => true
        | some sv =>
          match normalize_datetime stv with
          | none => false
          | some rt => decide (normPyDT sv ≤ rt)) &&
       (match untl with
        | none => true
        | some uv =>
          match normalize_datetime stv with
          | none => false
          | some rt => decide (rt ≤ normPyDT uv))) := by
  cases since <;> cases untl <;> cases stv <;>
    (apply bool_eq_of_iff <;> simp [matches_date_range, normalize_datetime] <;> omega)

theorem accept_parity (fs : FS) (f : SessionFilter) (tool : Str) (r : SessionRec)
    (ftsT : List FtsRow) (fi : FileInfo) (m : Nat)
    (hs : build_search_tokens f.search = [])
    (hq : noWild (pyStrip f.project)) (hqa : asciiOnly (pyStrip f.project))
    (hpa : asciiOnly r.project_path) :
    sql_accept f tool ftsT (mkRow r fi m) = stream_accept fs f tool r := by
  have hP : likeMatch ('%' :: (pyStrip f.project ++ ['%'])) r.project_path =
      matches_project_filter r.project_path (pyStrip f.project) ∨
        pyStrip f.project = [] := by
    by_cases hq_ne : pyStrip f.project = []
    · exact Or.inr hq_ne
    · left
      apply bool_eq_of_iff
      rw [likeMatch_sub_iff _ _ hq]
      rw [matches_project_filter, if_neg hq_ne]
      rw [pySub, decide_eq_true_eq]
      rw [pyLower_ascii hqa, pyLower_ascii hpa]
  have hD : matches_date_range r.start_time f.since f.untl =
      ((match f.since with
        | none => true
        | some sv =>
          match normalize_datetime r.start_time with
          | none => false
          | some rt => decide (normPyDT sv ≤ rt)) &&
       (match f.untl with
        | none => true
        | some uv =>
          match normalize_datetime r.start_time with
          | none => false
          | some rt => decide (rt ≤ normPyDT uv))) :=
    matches_date_range_sql r.start_time f.since f.untl
  simp only [sql_accept, stream_accept, hs, List.isEmpty_nil, Bool.true_or,
    Bool.true_and, Bool.and_true, mkRow]
  rw [← hD]
  rcases hP with hP | hP
  · rw [hP]
    cases (tool == allKey || r.tool == tool) <;>
      cases (!f.has_project || matches_project_filter r.project_path (pyStrip f.project)) <;>
      cases matches_date_range r.start_time f.since f.untl <;> simp
  · have hhp : f.has_project = false := by
      rw [SessionFilter.has_project, hP]
      rfl
    rw [hhp]
    simp only [Bool.not_false, Bool.true_or]
    cases (tool == allKey || r.tool == tool) <;>
      cases matches_date_range r.start_time f.since f.untl <;> simp

/-- C1 (amended): for every `QueryFilter` whose search produces no tokens,
whose project substring contains no SQL LIKE wildcard (`%`, `_`) and is
ASCII, over records with ASCII project paths, well-formed distinct paths
and known parsers, the set of `sourcePath`s accepted by the streaming path
equals, pointwise, the set returned by the stored-clause translation
queried over the index built from the same files.  (The search-token
clause itself is excluded: as `spec_C1_counterexample` shows, substring
matching and FTS word matching genuinely differ.) -/
theorem spec_C1_parity_structured (recs : List SessionRec) (fs : FS)
    (parsers : Parsers) (f : SessionFilter) (tool : Str) (s' : Store) (st : Stats)
    (hsearch : build_search_tokens f.search = [])
    (hq : noWild (pyStrip f.project)) (hqa : asciiOnly (pyStrip f.project))
    (hpa : ∀ r ∈ recs, asciiOnly r.project_path)
    (hclean : ∀ r ∈ recs, cleanRec fs parsers r)
    (hnd : (recs.map SessionRec.file_path).Nodup)
    (hok : build_index recs emptyStore fs parsers = .ok (s', st)) :
    ∀ p, p ∈ (queryStore (some s') f tool none).map Row.file_path ↔
      p ∈ (recs.filter (stream_accept fs f tool)).map SessionRec.file_path := by
  rw [build_index_fresh recs fs parsers hclean hnd] at hok
  simp only [Except.ok.injEq, Prod.mk.injEq] at hok
  obtain ⟨hs, -⟩ := hok
  subst hs
  intro p
  simp only [queryStore, sortRowsDesc]
  rw [List.mem_map, List.mem_map]
  constructor
  · rintro ⟨row, hrow, rfl⟩
    have hrow' : row ∈ (freshRows fs recs 1).filter
        (sql_accept f tool (freshFts fs recs 1)) :=
      (List.mem_insertionSort rowGE).mp hrow
    obtain ⟨hmem, hacc⟩ := List.mem_filter.mp hrow'
    obtain ⟨rec, hrec, m, rfl⟩ := mem_freshRows fs recs 1 row hmem
    refine ⟨rec, ?_, rfl⟩
    apply List.mem_filter.mpr
    refine ⟨hrec, ?_⟩
    rw [← accept_parity fs f tool rec (freshFts fs recs 1) _ m hsearch hq hqa
      (hpa rec hrec)]
    exact hacc
  · rintro ⟨rec, hrec, rfl⟩
    obtain ⟨hrecmem, hacc⟩ := List.mem_filter.mp hrec
    obtain ⟨m, hm⟩ := freshRows_exists fs recs 1 rec hrecmem
    refine ⟨mkRow rec (statFI fs rec.file_path) m, ?_, rfl⟩
    apply (List.mem_insertionSort rowGE).mpr
    apply List.mem_filter.mpr
    refine ⟨hm, ?_⟩
    rw [accept_parity fs f tool rec (freshFts fs recs 1) _ m hsearch hq hqa
      (hpa rec hrecmem)]
    exact hacc

/-- A filter with no search text and the project substring `"P"`. -/
def wFilterProj : SessionFilter :=
  { search := [], project := ['P'], since := none, untl := none }

/-- Witness for `spec_C1_parity_structured`: one record, project filter
`"P"`, matched identically by both paths. -/
theorem spec_C1_parity_structured_witness :
    (build_search_tokens wFilterProj.search = []
      ∧ noWild (pyStrip wFilterProj.project)
      ∧ asciiOnly (pyStrip wFilterProj.project)
      ∧ (∀ r ∈ [wRec], asciiOnly r.project_path)
      ∧ (∀ r ∈ [wRec], cleanRec wFS wParsers r)
      ∧ (([wRec].map SessionRec.file_path).Nodup)
      ∧ build_index [wRec] emptyStore wFS wParsers = .ok (wStore, wStats))
    ∧ (∀ p, p ∈ (queryStore (some wStore) wFilterProj allKey none).map Row.file_path ↔
        p ∈ ([wRec].filter (stream_accept wFS wFilterProj allKey)).map
          SessionRec.file_path) :=
  ⟨⟨rfl, by decide, by decide, by decide,
      by
        intro r hr
        simp at hr
        subst hr
        exact ⟨by decide, by rfl, by decide⟩,
      by simp, by rfl⟩,
    spec_C1_parity_structured [wRec] wFS wParsers wFilterProj allKey wStore wStats
      rfl (by decide) (by decide) (by decide)
      (by
        intro r hr
        simp at hr
        subst hr
        exact ⟨by decide, by rfl, by decide⟩)
      (by simp) (by rfl)⟩

/-- A timestamp with UTC (or absent, hence UTC-assumed) offset whose wall
clock lies strictly above `datetime.min` — true of every timestamp Python's
`fromisoformat` produces in these files in practice. -/
def tsOK (t : PyDT) : Prop := (t.off = none ∨ t.off = some 0) ∧ datetimeMin < t.wall

instance (t : PyDT) : Decidable (tsOK t) := by unfold tsOK; infer_instance

instance : IsTotal Row rowGE := ⟨fun a b => le_total (rowKey b) (rowKey a)⟩

instance : IsTrans Row rowGE := ⟨fun _ _ _ hab hbc => le_trans hbc hab⟩

instance : IsTotal SessionRec lastWallGE := ⟨fun a b => le_total (lastWallKey b) (lastWallKey a)⟩

instance : IsTrans SessionRec lastWallGE := ⟨fun _ _ _ hab hbc => le_trans hbc hab⟩

/-- Ordering facts about one produced record: a missing `lastActivityTime`
implies a missing `startTime`, and any present one is a well-behaved
timestamp. -/
def recOrdOK (r : SessionRec) : Prop :=
  (r.last_time = none → r.start_time = none) ∧ ∀ t, r.last_time = some t → tsOK t

theorem lastWall_to_claim {a b : SessionRec}
    (hca : recOrdOK a) (hcb : recOrdOK b) (h : lastWallGE a b) : claimGE a b := by
  unfold lastWallGE lastWallKey at h
  unfold claimGE claimKey
  cases hla : a.last_time with
  | some ta =>
    cases hlb : b.last_time with
    | some tb =>
      rw [hla, hlb] at h
      have hta := hca.2 ta hla
      have htb := hcb.2 tb hlb
      have hna : normPyDT ta = ta.wall := by
        rcases hta.1 with h1 | h1 <;> simp [normPyDT, h1]
      have hnb : normPyDT tb = tb.wall := by
        rcases htb.1 with h1 | h1 <;> simp [normPyDT, h1]
      simp only [hna, hnb]
      exact_mod_cast h
    | none =>
      rw [hcb.1 hlb]
      exact bot_le
  | none =>
    cases hlb : b.last_time with
    | none =>
      rw [hcb.1 hlb]
      exact bot_le
    | some tb =>
      exfalso
      rw [hla, hlb] at h
      have htb := hcb.2 tb hlb
      exact absurd h (not_le.mpr htb.2)

theorem sorted_claim_of_sorted_wall (l : List SessionRec)
    (hfacts : ∀ r ∈ l, recOrdOK r)
    (h : List.Sorted lastWallGE l) : List.Sorted claimGE l := by
  apply List.Pairwise.imp_of_mem ?_ h
  intro a b ha hb hab
  exact lastWall_to_claim (hfacts a ha) (hfacts b hb) hab

/-- Every timestamp appearing in a Claude file is well-behaved. -/
def claudeFileOK (cf : ClaudeFile) : Prop :=
  ∀ o ∈ cf.stamps, ∀ t, o = some t → tsOK t

theorem claudeParse_ordOK (cf : ClaudeFile) (r : SessionRec)
    (hok : claudeFileOK cf) (h : claudeParse cf = some r) : recOrdOK r := by
  unfold claudeParse at h
  by_cases hk : cf.keep = true
  · rw [if_pos hk] at h
    injection h with h
    subst h
    constructor
    · intro hlast
      show claudeStart cf.stamps = none
      unfold claudeStart
      unfold claudeLast at hlast
      rw [List.head?_eq_none_iff]
      exact List.getLast?_eq_none_iff.mp hlast
    · intro t hlast
      have hmem : t ∈ cf.stamps.filterMap id := List.mem_of_mem_getLast? hlast
      rw [List.mem_filterMap] at hmem
      obtain ⟨o, ho, hid⟩ := hmem
      exact hok o ho t hid
  · rw [if_neg hk] at h
    cases h

/-- The timestamp a Codex line carries, if any. -/
def lineTs : CodexLine → Option PyDT
  | .meta ts => ts
  | .userMsg ts => ts
  | .other => none

theorem codexTimes_mem :
    ∀ (lines : List CodexLine) (st lt : Option PyDT),
      (∀ t, (codexTimes lines st lt).1 = some t →
        (st = some t ∨ ∃ l ∈ lines, lineTs l = some t))
      ∧ (∀ t, (codexTimes lines st lt).2 = some t →
        (lt = some t ∨ ∃ l ∈ lines, lineTs l = some t))
  | [], st, lt => ⟨fun _ h => Or.inl h, fun _ h => Or.inl h⟩
  | .meta (some t') :: rest, st, lt => by
    have ih := codexTimes_mem rest (some t') lt
    refine ⟨?_, ?_⟩
    · intro t h
      rcases ih.1 t h with h1 | ⟨l, hl, hts⟩
      · right
        exact ⟨.meta (some t'), List.mem_cons_self _ _, h1⟩
      · exact Or.inr ⟨l, List.mem_cons_of_mem _ hl, hts⟩
    · intro t h
      rcases ih.2 t h with h1 | ⟨l, hl, hts⟩
      · exact Or.inl h1
      · exact Or.inr ⟨l, List.mem_cons_of_mem _ hl, hts⟩
  | .meta none :: rest, st, lt => by
    have ih := codexTimes_mem rest st lt
    refine ⟨?_, ?_⟩
    · intro t h
      rcases ih.1 t h with h1 | ⟨l, hl, hts⟩
      · exact Or.inl h1
      · exact Or.inr ⟨l, List.mem_cons_of_mem _ hl, hts⟩
    · intro t h
      rcases ih.2 t h with h1 | ⟨l, hl, hts⟩
      · exact Or.inl h1
      · exact Or.inr ⟨l, List.mem_cons_of_mem _ hl, hts⟩
  | .userMsg (some t') :: rest, st, lt => by
    have ih := codexTimes_mem rest st (some t')
    refine ⟨?_, ?_⟩
    · intro t h
      rcases ih.1 t h with h1 | ⟨l, hl, hts⟩
      · exact Or.inl h1
      · exact Or.inr ⟨l, List.mem_cons_of_mem _ hl, hts⟩
    · intro t h
      rcases ih.2 t h with h1 | ⟨l, hl, hts⟩
      · right
        exact ⟨.userMsg (some t'), List.mem_cons_self _ _, h1⟩
      · exact Or.inr ⟨l, List.mem_cons_of_mem _ hl, hts⟩
  | .userMsg none :: rest, st, lt => by
    have ih := codexTimes_mem rest st lt
    refine ⟨?_, ?_⟩
    · intro t h
      rcases ih.1 t h with h1 | ⟨l, hl, hts⟩
      · exact Or.inl h1
      · exact Or.inr ⟨l, List.mem_cons_of_mem _ hl, hts⟩
    · intro t h
      rcases ih.2 t h with h1 | ⟨l, hl, hts⟩
      · exact Or.inl h1
      · exact Or.inr ⟨l, List.mem_cons_of_mem _ hl, hts⟩
  | .other :: rest, st, lt => by
    have ih := codexTimes_mem rest st lt
    refine ⟨?_, ?_⟩
    · intro t h
      rcases ih.1 t h with h1 | ⟨l, hl, hts⟩
      · exact Or.inl h1
      · exact Or.inr ⟨l, List.mem_cons_of_mem _ hl, hts⟩
    · intro t h
      rcases ih.2 t h with h1 | ⟨l, hl, hts⟩
      · exact Or.inl h1
      · exact Or.inr ⟨l, List.mem_cons_of_mem _ hl, hts⟩

/-- Every timestamp appearing in a Codex file is well-behaved. -/
def codexFileOK (cf : CodexFile) : Prop :=
  ∀ l ∈ cf.lines, ∀ t, lineTs l = some t → tsOK t

theorem codexParse_ordOK (cf : CodexFile) (r : SessionRec)
    (hok : codexFileOK cf) (h : codexParse cf = some r) : recOrdOK r := by
  unfold codexParse at h
  by_cases hk : cf.keep = true
  · rw [if_pos hk] at h
    injection h with h
    subst h
    have hmem := codexTimes_mem cf.lines none none
    constructor
    · intro hlast
      show (codexTimes cf.lines none none).1 = none
      have hl : (match (codexTimes cf.lines none none).2 with
          | some t => some t
          | none => (codexTimes cf.lines none none).1) = none := hlast
      rcases hl2 : (codexTimes cf.lines none none).2 with - | t2
      · rw [hl2] at hl
        simpa using hl
      · rw [hl2] at hl
        simp at hl
    · intro t hlast
      have hl : (match (codexTimes cf.lines none none).2 with
          | some t => some t
          | none => (codexTimes cf.lines none none).1) = some t := hlast
      rcases hl2 : (codexTimes cf.lines none none).2 with - | t2
      · rw [hl2] at hl
        simp only at hl
        rcases hmem.1 t hl with h1 | ⟨l, hlm, hts⟩
        · cases h1
        · exact hok l hlm t hts
      · rw [hl2] at hl
        simp only [Option.some.injEq] at hl
        subst hl
        rcases hmem.2 t2 hl2 with h1 | ⟨l, hlm, hts⟩
        · cases h1
        · exact hok l hlm t2 hts
  · rw [if_neg hk] at h
    cases h

/-- C7 (amended): every result sequence — `SessionIndexer.query` output and
each parser's `get_sessions` output — is ordered descending by
`lastActivityTime` falling back to `startTime` (records with neither
last), given that file timestamps are UTC and above `datetime.min`; and
the limit truncates the fully-ordered sequence for `query` and for
`ClaudeSessionParser.get_sessions`.  For `CodexSessionParser.get_sessions`
the output is still sorted, but the collection loop stops at `limit`
candidate files before sorting (see `spec_C7_counterexample`), so its
limited output is not in general a prefix of the fully-ordered output. -/
theorem spec_C7_ordering_amended
    (db : Option Store) (f : SessionFilter) (tool : Str) (lim : Option Nat) (n : Nat)
    (cfiles : List ClaudeFile) (xfiles : List CodexFile)
    (hcl : ∀ cf ∈ cfiles, claudeFileOK cf)
    (hxl : ∀ xf ∈ xfiles, codexFileOK xf) :
    List.Sorted claimRowGE (queryStore db f tool lim)
    ∧ queryStore db f tool (some n) = (queryStore db f tool none).take n
    ∧ List.Sorted claimGE (claude_get_sessions cfiles lim)
    ∧ claude_get_sessions cfiles (some n) = (claude_get_sessions cfiles none).take n
    ∧ List.Sorted claimGE (codex_get_sessions xfiles lim) := by
  refine ⟨?_, ?_, ?_, ?_, ?_⟩
  · cases db with
    | none =>
      cases lim <;> exact List.sorted_nil
    | some s =>
      have hsorted : List.Sorted rowGE
          (sortRowsDesc (s.sessions.filter (sql_accept f tool s.fts))) :=
        List.sorted_insertionSort rowGE _
      cases lim with
      | none => exact hsorted
      | some m => exact List.Pairwise.sublist (List.take_sublist m _) hsorted
  · cases db with
    | none => exact List.take_nil.symm
    | some s => rfl
  · apply sorted_claim_of_sorted_wall
    · intro r hr
      have hr' : r ∈ (cfiles.filterMap claudeParse).insertionSort lastWallGE := by
        cases lim with
        | none => exact hr
        | some m => exact List.take_subset m _ hr
      have hr2 : r ∈ cfiles.filterMap claudeParse :=
        (List.mem_insertionSort lastWallGE).mp hr'
      obtain ⟨cf, hcf, hparse⟩ := List.mem_filterMap.mp hr2
      exact claudeParse_ordOK cf r (hcl cf hcf) hparse
    · cases lim with
      | none => exact List.sorted_insertionSort lastWallGE _
      | some m =>
        exact List.Pairwise.sublist (List.take_sublist m _)
          (List.sorted_insertionSort lastWallGE _)
  · rfl
  · apply sorted_claim_of_sorted_wall
    · intro r hr
      have hr' : r ∈ (takeLim lim (xfiles.filterMap codexParse)).insertionSort
          lastWallGE := by
        cases lim with
        | none => exact hr
        | some m => exact List.take_subset m _ hr
      have hr2 : r ∈ takeLim lim (xfiles.filterMap codexParse) :=
        (List.mem_insertionSort lastWallGE).mp hr'
      have hr3 : r ∈ xfiles.filterMap codexParse := by
        cases lim with
        | none => exact hr2
        | some m => exact List.take_subset m _ hr2
      obtain ⟨xf, hxf, hparse⟩ := List.mem_filterMap.mp hr3
      exact codexParse_ordOK xf r (hxl xf hxf) hparse
    · cases lim with
      | none => exact List.sorted_insertionSort lastWallGE _
      | some m =>
        exact List.Pairwise.sublist (List.take_sublist m _)
          (List.sorted_insertionSort lastWallGE _)

/-- Witness for `spec_C7_ordering_amended`: a stored query over the
one-session index plus a one-file Codex listing. -/
theorem spec_C7_ordering_amended_witness :
    ((∀ cf ∈ ([] : List ClaudeFile), claudeFileOK cf)
      ∧ (∀ xf ∈ [c7f1], codexFileOK xf))
    ∧ (List.Sorted claimRowGE (queryStore (some wStore) wFilterProj allKey none)
       ∧ queryStore (some wStore) wFilterProj allKey (some 1)
           = (queryStore (some wStore) wFilterProj allKey none).take 1
       ∧ List.Sorted claimGE (claude_get_sessions [] none)
       ∧ claude_get_sessions [] (some 1) = (claude_get_sessions [] none).take 1
       ∧ List.Sorted claimGE (codex_get_sessions [c7f1] none)) :=
  ⟨⟨by simp,
      by
        intro xf hxf
        simp only [List.mem_singleton] at hxf
        subst hxf
        intro l hl t hts
        simp only [c7f1, List.mem_cons, List.not_mem_nil, or_false] at hl
        rcases hl with rfl | rfl
        · simp only [lineTs, Option.some.injEq] at hts
          subst hts
          exact ⟨Or.inr rfl, by decide⟩
        · simp only [lineTs, Option.some.injEq] at hts
          subst hts
          exact ⟨Or.inr rfl, by decide⟩⟩,
    spec_C7_ordering_amended (some wStore) wFilterProj allKey none 1 [] [c7f1]
      (by simp)
      (by
        intro xf hxf
        simp only [List.mem_singleton] at hxf
        subst hxf
        intro l hl t hts
        simp only [c7f1, List.mem_cons, List.not_mem_nil, or_false] at hl
        rcases hl with rfl | rfl
        · simp only [lineTs, Option.some.injEq] at hts
          subst hts
          exact ⟨Or.inr rfl, by decide⟩
        · simp only [lineTs, Option.some.injEq] at hts
          subst hts
          exact ⟨Or.inr rfl, by decide⟩)⟩

end SessionViewer
